import Mathlib

/-!
Verification of the System execution-graph construction and trial-execution
core of PsyNeuLink (`psyneulink/components/system.py`).

The development shallowly embeds the graph data model and the operations of
`System._instantiate_graph`, `System._instantiate_learning_graph`,
`System._toposort_with_ordered_mechs`, `System.execute` and
`System._execute_learning`, and proves (or refutes) the specification's
claims about them.
-/

namespace PsyNeuLink

/-- A Mechanism (Node).  Only its identity and its `name` matter to the
graph/scheduling core; `id` distinguishes distinct Mechanisms that may share
a name. -/
structure Mech where
  id : Nat
  name : String
deriving DecidableEq, Repr

/-- A dependency graph, as built by `System._instantiate_graph`:
an ordered association of `receiver ↦ set of senders it depends on`
(Python: an `OrderedDict` mapping each receiver Mechanism to the `set` of
Mechanisms that project to it).  Key order models insertion order; the
sender lists carry set semantics (no duplicates are ever inserted). -/
abbrev DepGraph := List (Mech × List Mech)

/-- Look up the dependency set recorded for `r` (`None` if `r` is not a key,
mirroring Python's `receiver in self.execution_graph` test). -/
def lookupDeps : DepGraph → Mech → Option (List Mech)
  | [], _ => none
  | (k, ds) :: rest, r => if k = r then some ds else lookupDeps rest r

/-- `r`'s dependency set, defaulting to empty when `r` is not a key. -/
def depsOf (g : DepGraph) (r : Mech) : List Mech :=
  (lookupDeps g r).getD []

/-- Whether `r` is a key of the graph (Python: `receiver in self.execution_graph`). -/
def isKey (g : DepGraph) (r : Mech) : Bool :=
  (lookupDeps g r).isSome

/-- `self.graph[receiver].add(sender)` with `KeyError` fallback
`self.graph[receiver] = {sender}` (system.py lines 1414-1417):
add `s` to `r`'s dependency set, creating the key if needed. -/
def addDep : DepGraph → Mech → Mech → DepGraph
  | [], r, s => [(r, [s])]
  | (k, ds) :: rest, r, s =>
    if k = r then (k, if s ∈ ds then ds else ds ++ [s]) :: rest
    else (k, ds) :: addDep rest r s

/-- `self.execution_graph[receiver].remove(sender)` (system.py line 1446):
remove `s` from `r`'s dependency set (the key itself is kept). -/
def removeDep : DepGraph → Mech → Mech → DepGraph
  | [], _, _ => []
  | (k, ds) :: rest, r, s =>
    if k = r then (k, ds.filter (fun m => m ≠ s)) :: rest
    else (k, ds) :: removeDep rest r s

/-- `self.graph[mech] = set()` (system.py lines 1511-1512): overwrite (or
create) `m`'s entry with the empty dependency set, seeding an ORIGIN. -/
def setEmpty : DepGraph → Mech → DepGraph
  | [], m => [(m, [])]
  | (k, ds) :: rest, m =>
    if k = m then (m, []) :: rest else (k, ds) :: setEmpty rest m

/-! ### The `toposort` library

`system.py` imports `toposort` and `toposort_flatten` from the PyPI
`toposort` package.  `toposort(data)` first discards self-dependencies,
then adds an empty-set entry for every item that appears only inside a
dependency set, and then repeatedly yields the set of items whose remaining
dependency set is empty, removing them from the other sets; if it stalls
with data left over it raises `ValueError('Cyclic dependencies exist ...')`.
We embed it as `toposortLayers`, with `none` standing for the
`ValueError`. -/

/-- All items of the graph: the keys followed by the items appearing only in
dependency sets (the library's `extra_items_in_deps`), deduplicated. -/
def graphNodes (g : DepGraph) : List Mech :=
  (g.map Prod.fst ++ (g.map Prod.snd).flatten).dedup

/-- The library's normalization pass: every item becomes a key, and
self-dependencies are discarded. -/
def cleanGraph (g : DepGraph) : DepGraph :=
  (graphNodes g).map (fun n => (n, (depsOf g n).filter (fun m => m ≠ n)))

/-- Items whose remaining dependency set is empty (the next layer). -/
def readyNodes (pending : DepGraph) : List Mech :=
  (pending.filter (fun p => p.2.isEmpty)).map Prod.fst

/-- Remove the ready items and their contribution to the remaining sets
(the library's `data = {item: (dep - ordered) ...}`). -/
def kahnRest (pending : DepGraph) (ready : List Mech) : DepGraph :=
  (pending.filter (fun p => !p.2.isEmpty)).map
    (fun p => (p.1, p.2.filter (fun m => decide (m ∉ ready))))

/-- The layer-extraction loop, fueled by the number of entries. -/
def kahn : Nat → DepGraph → Option (List (List Mech))
  | 0, pending => if pending.isEmpty then some [] else none
  | fuel + 1, pending =>
    if pending.isEmpty then some [] else
    let ready := readyNodes pending
    if ready.isEmpty then none
    else match kahn fuel (kahnRest pending ready) with
      | some layers => some (ready :: layers)
      | none => none

/-- `list(toposort(g))`: the topological layers of `g`, or `none` when the
library raises `ValueError('Cyclic dependencies exist ...')`. -/
def toposortLayers (g : DepGraph) : Option (List (List Mech)) :=
  kahn (cleanGraph g).length (cleanGraph g)

/-! ### Acyclicity, stated independently of the algorithm -/

/-- `x` depends on `y` (there is a Projection `y → x` recorded in the
graph); self-dependencies are excluded, exactly as the `toposort` library
ignores them. -/
def edgeTo (g : DepGraph) (x y : Mech) : Prop :=
  y ∈ depsOf g x ∧ y ≠ x

/-- The graph has a (non-self-loop) dependency cycle. -/
def HasCycle (g : DepGraph) : Prop :=
  ∃ a, Relation.TransGen (edgeTo g) a a

/-- The graph is acyclic. -/
def Acyclic (g : DepGraph) : Prop := ¬ HasCycle g

/-! ### Basic facts about the association-list operations -/

/-- The keys of the graph are pairwise distinct (maintained by all the
insertion operations; Python dictionaries have unique keys). -/
def KeysNodup (g : DepGraph) : Prop := (g.map Prod.fst).Nodup

theorem lookupDeps_some_mem {g : DepGraph} {x ds} (h : lookupDeps g x = some ds) :
    (x, ds) ∈ g := by
  induction g with
  | nil => simp [lookupDeps] at h
  | cons p rest ih =>
    obtain ⟨k, es⟩ := p
    by_cases hk : k = x
    · subst hk
      simp [lookupDeps] at h
      simp [h]
    · simp [lookupDeps, hk] at h
      exact List.mem_cons_of_mem _ (ih h)

theorem lookupDeps_none_of_not_mem_keys {g : DepGraph} {x}
    (h : x ∉ g.map Prod.fst) : lookupDeps g x = none := by
  induction g with
  | nil => rfl
  | cons p rest ih =>
    simp only [List.map_cons, List.mem_cons] at h
    push_neg at h
    have hne : ¬ p.1 = x := fun hc => h.1 hc.symm
    simp [lookupDeps, hne, ih h.2]

theorem mem_keys_of_lookupDeps_some {g : DepGraph} {x ds}
    (h : lookupDeps g x = some ds) : x ∈ g.map Prod.fst := by
  by_contra hx
  rw [lookupDeps_none_of_not_mem_keys hx] at h
  exact Option.noConfusion h

theorem lookupDeps_isSome_of_mem_keys {g : DepGraph} {x}
    (h : x ∈ g.map Prod.fst) : (lookupDeps g x).isSome = true := by
  induction g with
  | nil => simp at h
  | cons p rest ih =>
    by_cases hk : p.1 = x
    · obtain ⟨k, es⟩ := p
      simp only at hk
      subst hk
      simp [lookupDeps]
    · simp only [List.map_cons, List.mem_cons] at h
      rcases h with h | h
      · exact absurd h.symm hk
      · obtain ⟨k, es⟩ := p
        simp only at hk
        simp [lookupDeps, hk, ih h]

theorem isKey_iff_mem_keys {g : DepGraph} {x} :
    isKey g x = true ↔ x ∈ g.map Prod.fst := by
  constructor
  · intro h
    rw [isKey, Option.isSome_iff_exists] at h
    obtain ⟨ds, hds⟩ := h
    exact mem_keys_of_lookupDeps_some hds
  · intro h
    exact lookupDeps_isSome_of_mem_keys h

theorem mem_depsOf_iff {g : DepGraph} {x y} :
    y ∈ depsOf g x ↔ ∃ ds, lookupDeps g x = some ds ∧ y ∈ ds := by
  rw [depsOf]
  cases hl : lookupDeps g x with
  | none => simp
  | some ds => simp

/-! ### Facts about `cleanGraph` (the library's normalization pass) -/

theorem lookupDeps_map_pair (l : List Mech) (f : Mech → List Mech) (x : Mech) :
    lookupDeps (l.map (fun n => (n, f n))) x
      = if x ∈ l then some (f x) else none := by
  induction l with
  | nil => simp [lookupDeps]
  | cons n rest ih =>
    by_cases hn : n = x
    · subst hn
      simp [lookupDeps]
    · have hne : x ≠ n := fun hc => hn hc.symm
      simp [lookupDeps, hn, hne, ih]

theorem keys_cleanGraph (g : DepGraph) :
    (cleanGraph g).map Prod.fst = graphNodes g := by
  rw [cleanGraph, List.map_map]
  simp [Function.comp_def]

theorem keysNodup_cleanGraph (g : DepGraph) : KeysNodup (cleanGraph g) := by
  rw [KeysNodup, keys_cleanGraph]
  exact List.nodup_dedup _

theorem lookupDeps_cleanGraph (g : DepGraph) (x : Mech) :
    lookupDeps (cleanGraph g) x
      = if x ∈ graphNodes g then some ((depsOf g x).filter (fun m => m ≠ x))
        else none := by
  rw [cleanGraph, lookupDeps_map_pair]

theorem mem_graphNodes_of_key {g : DepGraph} {x ds}
    (h : lookupDeps g x = some ds) : x ∈ graphNodes g := by
  rw [graphNodes, List.mem_dedup]
  exact List.mem_append_left _ (mem_keys_of_lookupDeps_some h)

theorem mem_graphNodes_of_dep {g : DepGraph} {x ds y}
    (h : lookupDeps g x = some ds) (hy : y ∈ ds) : y ∈ graphNodes g := by
  rw [graphNodes, List.mem_dedup]
  refine List.mem_append_right _ ?_
  rw [List.mem_flatten]
  exact ⟨ds, List.mem_map_of_mem Prod.snd (lookupDeps_some_mem h), hy⟩

theorem depsOf_cleanGraph (g : DepGraph) (x : Mech) :
    depsOf (cleanGraph g) x = (depsOf g x).filter (fun m => m ≠ x) := by
  rw [depsOf, lookupDeps_cleanGraph]
  by_cases hx : x ∈ graphNodes g
  · simp [hx]
  · simp only [hx, if_false, Option.getD_none]
    have : lookupDeps g x = none := by
      cases hl : lookupDeps g x with
      | none => rfl
      | some ds => exact absurd (mem_graphNodes_of_key hl) hx
    rw [depsOf, this, Option.getD_none, List.filter_nil]

theorem edgeTo_cleanGraph (g : DepGraph) (x y : Mech) :
    edgeTo (cleanGraph g) x y ↔ edgeTo g x y := by
  rw [edgeTo, edgeTo, depsOf_cleanGraph, List.mem_filter]
  constructor
  · rintro ⟨⟨h1, _⟩, h3⟩
    exact ⟨h1, h3⟩
  · rintro ⟨h1, h2⟩
    exact ⟨⟨h1, by simpa using h2⟩, h2⟩

/-- No entry of the graph lists itself among its dependencies. -/
def NoSelf (g : DepGraph) : Prop := ∀ p ∈ g, ∀ y ∈ p.2, y ≠ p.1

/-- Every dependency of an entry is itself a key of the graph. -/
def ClosedDeps (g : DepGraph) : Prop := ∀ p ∈ g, ∀ y ∈ p.2, isKey g y = true

theorem noSelf_cleanGraph (g : DepGraph) : NoSelf (cleanGraph g) := by
  rintro p hp y hy
  rw [cleanGraph, List.mem_map] at hp
  obtain ⟨n, _, rfl⟩ := hp
  simp only [List.mem_filter] at hy
  simpa using hy.2

theorem closedDeps_cleanGraph (g : DepGraph) : ClosedDeps (cleanGraph g) := by
  rintro p hp y hy
  rw [cleanGraph, List.mem_map] at hp
  obtain ⟨n, hn, rfl⟩ := hp
  simp only [List.mem_filter] at hy
  have hy' : y ∈ depsOf g n := hy.1
  rw [mem_depsOf_iff] at hy'
  obtain ⟨ds, hds, hyds⟩ := hy'
  rw [isKey_iff_mem_keys, keys_cleanGraph]
  exact mem_graphNodes_of_dep hds hyds

/-! ### Facts about one round of the layer-extraction loop -/

theorem lookupDeps_of_mem_nodup {g : DepGraph} {x ds}
    (hnd : KeysNodup g) (h : (x, ds) ∈ g) : lookupDeps g x = some ds := by
  induction g with
  | nil => simp at h
  | cons p rest ih =>
    rw [KeysNodup, List.map_cons, List.nodup_cons] at hnd
    rcases List.mem_cons.mp h with h | h
    · subst h
      simp [lookupDeps]
    · have hne : ¬ p.1 = x := by
        intro hc
        exact hnd.1 (hc ▸ (List.mem_map_of_mem Prod.fst h))
      simp [lookupDeps, hne, ih hnd.2 h]

theorem keys_kahnRest (pending : DepGraph) (ready : List Mech) :
    (kahnRest pending ready).map Prod.fst
      = (pending.filter (fun p => !p.2.isEmpty)).map Prod.fst := by
  rw [kahnRest, List.map_map]
  rfl

theorem keysNodup_kahnRest {pending : DepGraph} {ready : List Mech}
    (h : KeysNodup pending) : KeysNodup (kahnRest pending ready) := by
  rw [KeysNodup, keys_kahnRest]
  exact h.sublist ((List.filter_sublist _).map Prod.fst)

theorem mem_readyNodes_iff {pending : DepGraph} (hnd : KeysNodup pending) {x} :
    x ∈ readyNodes pending ↔ lookupDeps pending x = some [] := by
  constructor
  · intro h
    rw [readyNodes, List.mem_map] at h
    obtain ⟨p, hp, rfl⟩ := h
    rw [List.mem_filter] at hp
    have : p.2 = [] := List.isEmpty_iff.mp hp.2
    have hmem : (p.1, ([] : List Mech)) ∈ pending := by
      rw [← this]
      exact hp.1
    exact lookupDeps_of_mem_nodup hnd hmem
  · intro h
    rw [readyNodes, List.mem_map]
    refine ⟨(x, []), ?_, rfl⟩
    rw [List.mem_filter]
    exact ⟨lookupDeps_some_mem h, rfl⟩

theorem kahnRest_cons (k : Mech) (es : List Mech) (rest : DepGraph)
    (ready : List Mech) :
    kahnRest ((k, es) :: rest) ready
      = if es.isEmpty then kahnRest rest ready
        else (k, es.filter (fun m => decide (m ∉ ready))) :: kahnRest rest ready := by
  by_cases he : es.isEmpty
  · rw [if_pos he, kahnRest, List.filter_cons, kahnRest]
    simp [he]
  · rw [if_neg he, kahnRest, List.filter_cons, kahnRest]
    simp [he]

theorem lookupDeps_kahnRest {pending : DepGraph} (hnd : KeysNodup pending)
    (ready : List Mech) (x : Mech) :
    lookupDeps (kahnRest pending ready) x
      = (lookupDeps pending x).bind
          (fun ds => if ds.isEmpty then none
                     else some (ds.filter (fun m => decide (m ∉ ready)))) := by
  induction pending with
  | nil => rfl
  | cons p rest ih =>
    rw [KeysNodup, List.map_cons, List.nodup_cons] at hnd
    obtain ⟨k, es⟩ := p
    rw [kahnRest_cons]
    by_cases hk : k = x
    · subst hk
      have hlk : lookupDeps ((k, es) :: rest) k = some es := by
        simp [lookupDeps]
      rw [hlk]
      simp only [Option.some_bind]
      by_cases he : es.isEmpty
      · rw [if_pos he, if_pos he]
        apply lookupDeps_none_of_not_mem_keys
        rw [keys_kahnRest]
        intro hc
        exact hnd.1 (((List.filter_sublist _).map Prod.fst).subset hc)
      · rw [if_neg he, if_neg he]
        simp [lookupDeps]
    · have hlk : lookupDeps ((k, es) :: rest) x = lookupDeps rest x := by
        simp only [lookupDeps, if_neg hk]
      rw [hlk, ← ih hnd.2]
      by_cases he : es.isEmpty
      · rw [if_pos he]
      · rw [if_neg he]
        simp [lookupDeps, hk]

/-- The layer index of an item: the position of the first layer containing
it (total, for ease of reasoning). -/
def layerIdx : List (List Mech) → Mech → Nat
  | [], _ => 0
  | l :: ls, m => if m ∈ l then 0 else layerIdx ls m + 1

/-- Soundness of the layer-extraction loop: every recorded dependency on a
key points to a strictly earlier layer. -/
theorem kahn_sound : ∀ (fuel : Nat) (pending : DepGraph) (layers : List (List Mech)),
    KeysNodup pending → kahn fuel pending = some layers →
    ∀ x ds, lookupDeps pending x = some ds →
      ∀ y ∈ ds, isKey pending y = true → layerIdx layers y < layerIdx layers x := by
  intro fuel
  induction fuel with
  | zero =>
    intro pending layers _ h x ds hx
    rw [kahn] at h
    by_cases hemp : pending.isEmpty
    · rw [List.isEmpty_iff.mp hemp] at hx
      exact absurd hx (by simp [lookupDeps])
    · simp [hemp] at h
  | succ fuel ih =>
    intro pending layers hnd h x ds hx
    rw [kahn] at h
    by_cases hemp : pending.isEmpty
    · rw [List.isEmpty_iff.mp hemp] at hx
      exact absurd hx (by simp [lookupDeps])
    · simp only [hemp, if_false] at h
      by_cases hr : (readyNodes pending).isEmpty
      · simp [hr] at h
      · simp only [hr, if_false] at h
        cases hk : kahn fuel (kahnRest pending (readyNodes pending)) with
        | none => rw [hk] at h; exact absurd h (by simp)
        | some layers' =>
          rw [hk] at h
          have hlay : layers = readyNodes pending :: layers' := by
            simpa using h.symm
          subst hlay
          by_cases hxr : x ∈ readyNodes pending
          · have : lookupDeps pending x = some [] :=
              (mem_readyNodes_iff hnd).mp hxr
            rw [this] at hx
            have hds : ds = [] := by simpa using hx.symm
            subst hds
            intro y hy
            simp at hy
          · have hdsne : ds ≠ [] := by
              intro hc
              subst hc
              exact hxr ((mem_readyNodes_iff hnd).mpr hx)
            have hxrest : lookupDeps (kahnRest pending (readyNodes pending)) x
                = some (ds.filter (fun m => decide (m ∉ readyNodes pending))) := by
              rw [lookupDeps_kahnRest hnd, hx]
              simp [hdsne]
            intro y hy hykey
            have hidx : layerIdx (readyNodes pending :: layers') x
                = layerIdx layers' x + 1 := by
              simp [layerIdx, hxr]
            by_cases hyr : y ∈ readyNodes pending
            · rw [hidx]
              simp [layerIdx, hyr]
            · have hyidx : layerIdx (readyNodes pending :: layers') y
                  = layerIdx layers' y + 1 := by
                simp [layerIdx, hyr]
              rw [hidx, hyidx, Nat.add_lt_add_iff_right]
              have hyfil : y ∈ ds.filter (fun m => decide (m ∉ readyNodes pending)) := by
                rw [List.mem_filter]
                exact ⟨hy, by simpa using hyr⟩
              have hykey' : isKey (kahnRest pending (readyNodes pending)) y = true := by
                rw [isKey, Option.isSome_iff_exists]
                rw [isKey, Option.isSome_iff_exists] at hykey
                obtain ⟨es, hes⟩ := hykey
                have hesne : es ≠ [] := by
                  intro hc
                  subst hc
                  exact hyr ((mem_readyNodes_iff hnd).mpr hes)
                refine ⟨es.filter (fun m => decide (m ∉ readyNodes pending)), ?_⟩
                rw [lookupDeps_kahnRest hnd, hes]
                simp [hesne]
              exact ih _ layers' (keysNodup_kahnRest hnd) hk x _ hxrest y hyfil hykey'

/-- A successful `toposort` (no `ValueError`) certifies acyclicity. -/
theorem toposortLayers_some_acyclic {g : DepGraph} {layers : List (List Mech)}
    (h : toposortLayers g = some layers) : Acyclic g := by
  rintro ⟨a, hcyc⟩
  have hedge : ∀ x y, edgeTo g x y → layerIdx layers y < layerIdx layers x := by
    intro x y hxy
    have hxy' : edgeTo (cleanGraph g) x y := (edgeTo_cleanGraph g x y).mpr hxy
    obtain ⟨hmem, _⟩ := hxy'
    rw [mem_depsOf_iff] at hmem
    obtain ⟨ds, hds, hyds⟩ := hmem
    have hkey : isKey (cleanGraph g) y = true :=
      closedDeps_cleanGraph g _ (lookupDeps_some_mem hds) y hyds
    exact kahn_sound _ _ _ (keysNodup_cleanGraph g) h x ds hds y hyds hkey
  have hlt : ∀ x y, Relation.TransGen (edgeTo g) x y →
      layerIdx layers y < layerIdx layers x := by
    intro x y hxy
    induction hxy with
    | single h1 => exact hedge _ _ h1
    | tail _ h1 ihy => exact (hedge _ _ h1).trans ihy
  exact absurd (hlt a a hcyc) (lt_irrefl _)

theorem depsOf_kahnRest_subset {pending : DepGraph} (hnd : KeysNodup pending)
    (ready : List Mech) (x : Mech) :
    depsOf (kahnRest pending ready) x ⊆ depsOf pending x := by
  intro y hy
  rw [depsOf, lookupDeps_kahnRest hnd] at hy
  rw [depsOf]
  cases hl : lookupDeps pending x with
  | none => rw [hl] at hy; simp at hy
  | some ds =>
    rw [hl] at hy
    by_cases he : ds.isEmpty
    · rw [Option.some_bind, if_pos he] at hy
      simp at hy
    · rw [Option.some_bind, if_neg he] at hy
      simp only [Option.getD_some] at hy ⊢
      exact (List.mem_filter.mp hy).1

theorem edgeTo_kahnRest_sub {pending : DepGraph} (hnd : KeysNodup pending)
    {ready : List Mech} {x y : Mech} (h : edgeTo (kahnRest pending ready) x y) :
    edgeTo pending x y :=
  ⟨depsOf_kahnRest_subset hnd ready x h.1, h.2⟩

/-- A stalled layer-extraction loop on a nonempty dependency-closed graph
exhibits a cycle: every entry still depends on another entry, and the key
set is finite. -/
theorem hasCycle_of_stuck {pending : DepGraph}
    (hnd : KeysNodup pending) (hemp : ¬ pending.isEmpty = true)
    (hr : (readyNodes pending).isEmpty = true)
    (hns : NoSelf pending) (hcl : ClosedDeps pending) :
    HasCycle pending := by
  classical
  have hstep : ∀ x, isKey pending x = true →
      ∃ y, edgeTo pending x y ∧ isKey pending y = true := by
    intro x hx
    rw [isKey, Option.isSome_iff_exists] at hx
    obtain ⟨ds, hds⟩ := hx
    have hdsne : ds ≠ [] := by
      intro hc
      subst hc
      have hmem : x ∈ readyNodes pending := (mem_readyNodes_iff hnd).mpr hds
      rw [List.isEmpty_iff.mp hr] at hmem
      simp at hmem
    obtain ⟨y, hy⟩ := List.exists_mem_of_ne_nil ds hdsne
    have hmem := lookupDeps_some_mem hds
    refine ⟨y, ⟨?_, hns _ hmem y hy⟩, hcl _ hmem y hy⟩
    rw [mem_depsOf_iff]
    exact ⟨ds, hds, hy⟩
  set f : Mech → Mech :=
    fun x => if hx : ∃ y, edgeTo pending x y ∧ isKey pending y = true
             then hx.choose else x with hf
  have hfst : ∀ x, isKey pending x = true →
      edgeTo pending x (f x) ∧ isKey pending (f x) = true := by
    intro x hx
    have hex := hstep x hx
    rw [hf]
    simp only [dif_pos hex]
    exact hex.choose_spec
  have hiterKey : ∀ (x : Mech), isKey pending x = true →
      ∀ n, isKey pending (f^[n] x) = true := by
    intro x hx n
    induction n with
    | zero => simpa
    | succ n ihn =>
      rw [Function.iterate_succ_apply']
      exact (hfst _ ihn).2
  have htg : ∀ (k : Nat) (x : Mech), isKey pending x = true → 0 < k →
      Relation.TransGen (edgeTo pending) x (f^[k] x) := by
    intro k
    induction k with
    | zero => intro x _ h0; exact absurd h0 (lt_irrefl 0)
    | succ k ihk =>
      intro x hx _
      by_cases hk0 : k = 0
      · subst hk0
        rw [Function.iterate_one]
        exact Relation.TransGen.single (hfst x hx).1
      · have hkk := ihk x hx (Nat.pos_of_ne_zero hk0)
        rw [Function.iterate_succ_apply']
        exact hkk.tail (hfst _ (hiterKey x hx k)).1
  have hkeysne : pending.map Prod.fst ≠ [] := by
    intro hc
    apply hemp
    rw [List.isEmpty_iff]
    cases pending with
    | nil => rfl
    | cons p rest => simp at hc
  obtain ⟨x0, hx0⟩ := List.exists_mem_of_ne_nil _ hkeysne
  have hx0k : isKey pending x0 = true := isKey_iff_mem_keys.mpr hx0
  have main : ∀ (i j : Nat), i < j → f^[i] x0 = f^[j] x0 → HasCycle pending := by
    intro i j hij heq
    refine ⟨f^[i] x0, ?_⟩
    have h1 : Relation.TransGen (edgeTo pending) (f^[i] x0) (f^[j - i] (f^[i] x0)) :=
      htg (j - i) (f^[i] x0) (hiterKey x0 hx0k i) (by omega)
    have h2 : f^[j - i] (f^[i] x0) = f^[j] x0 := by
      rw [← Function.iterate_add_apply]
      congr 1
      omega
    rw [h2, ← heq] at h1
    exact h1
  set N := (pending.map Prod.fst).length with hN
  have hmaps : ∀ i : Fin (N + 1), f^[i.1] x0 ∈ (pending.map Prod.fst).toFinset := by
    intro i
    rw [List.mem_toFinset]
    exact isKey_iff_mem_keys.mp (hiterKey x0 hx0k i.1)
  have hcard : (pending.map Prod.fst).toFinset.card
      < (Finset.univ : Finset (Fin (N + 1))).card := by
    rw [Finset.card_univ, Fintype.card_fin]
    have := (pending.map Prod.fst).toFinset_card_le
    omega
  obtain ⟨i, _, j, _, hij, heq⟩ :=
    Finset.exists_ne_map_eq_of_card_lt_of_maps_to hcard (fun i _ => hmaps i)
  rcases Ne.lt_or_lt (Fin.val_ne_of_ne hij) with hlt | hlt
  · exact main i.1 j.1 hlt heq
  · exact main j.1 i.1 hlt heq.symm

/-- Completeness of the layer-extraction loop: it only raises on a graph
with a (non-self) cycle. -/
theorem kahn_complete : ∀ (fuel : Nat) (pending : DepGraph),
    KeysNodup pending → NoSelf pending → ClosedDeps pending →
    pending.length ≤ fuel → kahn fuel pending = none → HasCycle pending := by
  intro fuel
  induction fuel with
  | zero =>
    intro pending _ _ _ hlen h
    have : pending = [] := List.length_eq_zero.mp (Nat.le_zero.mp hlen)
    subst this
    exact absurd h (by simp [kahn])
  | succ fuel ih =>
    intro pending hnd hns hcl hlen h
    rw [kahn] at h
    by_cases hemp : pending.isEmpty
    · rw [if_pos hemp] at h
      exact absurd h (by simp)
    · rw [if_neg hemp] at h
      by_cases hr : (readyNodes pending).isEmpty
      · exact hasCycle_of_stuck hnd hemp hr hns hcl
      · simp only [hr, if_false] at h
        cases hk : kahn fuel (kahnRest pending (readyNodes pending)) with
        | some layers => rw [hk] at h; exact absurd h (by simp)
        | none =>
          have hnd' : KeysNodup (kahnRest pending (readyNodes pending)) :=
            keysNodup_kahnRest hnd
          have hns' : NoSelf (kahnRest pending (readyNodes pending)) := by
            rintro q hq y hy
            rw [kahnRest, List.mem_map] at hq
            obtain ⟨p, hp, rfl⟩ := hq
            have hp' := (List.mem_filter.mp hp).1
            exact hns p hp' y (List.mem_filter.mp hy).1
          have hcl' : ClosedDeps (kahnRest pending (readyNodes pending)) := by
            rintro q hq y hy
            rw [kahnRest, List.mem_map] at hq
            obtain ⟨p, hp, rfl⟩ := hq
            have hp' := (List.mem_filter.mp hp).1
            have hy' := List.mem_filter.mp hy
            have hykey : isKey pending y = true := hcl p hp' y hy'.1
            have hynr : y ∉ readyNodes pending := by simpa using hy'.2
            rw [isKey, Option.isSome_iff_exists] at hykey
            obtain ⟨es, hes⟩ := hykey
            have hesne : ¬ es.isEmpty = true := by
              intro hc
              rw [List.isEmpty_iff.mp hc] at hes
              exact hynr ((mem_readyNodes_iff hnd).mpr hes)
            rw [isKey, lookupDeps_kahnRest hnd, hes, Option.some_bind, if_neg hesne]
            rfl
          have hlen' : (kahnRest pending (readyNodes pending)).length ≤ fuel := by
            have h1 : (kahnRest pending (readyNodes pending)).length
                = (pending.filter (fun p => !p.2.isEmpty)).length := by
              rw [kahnRest, List.length_map]
            have h2 : (pending.filter (fun p => !p.2.isEmpty)).length
                < pending.length := by
              rw [List.length_filter_lt_length_iff_exists]
              have hrne : readyNodes pending ≠ [] := by
                intro hc
                rw [hc] at hr
                exact hr rfl
              obtain ⟨x, hx⟩ := List.exists_mem_of_ne_nil _ hrne
              rw [readyNodes, List.mem_map] at hx
              obtain ⟨p, hp, _⟩ := hx
              have hp' := List.mem_filter.mp hp
              exact ⟨p, hp'.1, by simpa using hp'.2⟩
            omega
          have hcyc' := ih _ hnd' hns' hcl' hlen' hk
          rcases hcyc' with ⟨a, ha⟩
          exact ⟨a, ha.mono (fun x y hxy => edgeTo_kahnRest_sub hnd hxy)⟩

/-- A raising `toposort` certifies a (non-self) cycle. -/
theorem toposortLayers_none_hasCycle {g : DepGraph}
    (h : toposortLayers g = none) : HasCycle g := by
  have hc := kahn_complete (cleanGraph g).length (cleanGraph g)
    (keysNodup_cleanGraph g) (noSelf_cleanGraph g) (closedDeps_cleanGraph g)
    le_rfl h
  rcases hc with ⟨a, ha⟩
  exact ⟨a, ha.mono (fun x y hxy => (edgeTo_cleanGraph g x y).mp hxy)⟩

/-- `list(toposort(execution_graph))` succeeds exactly when the graph is
acyclic. -/
theorem toposortLayers_isSome_iff (g : DepGraph) :
    (toposortLayers g).isSome = true ↔ Acyclic g := by
  constructor
  · intro h
    rw [Option.isSome_iff_exists] at h
    obtain ⟨layers, hl⟩ := h
    exact toposortLayers_some_acyclic hl
  · intro h
    cases hl : toposortLayers g with
    | some layers => rfl
    | none => exact absurd (toposortLayers_none_hasCycle hl) h

/-! ### Pointwise behaviour of the insertion/removal operations -/

theorem lookupDeps_addDep (g : DepGraph) (r s x : Mech) :
    lookupDeps (addDep g r s) x
      = if x = r then
          some (match lookupDeps g r with
                | some ds => if s ∈ ds then ds else ds ++ [s]
                | none => [s])
        else lookupDeps g x := by
  induction g with
  | nil =>
    by_cases hx : x = r
    · subst hx
      simp [addDep, lookupDeps]
    · have : ¬ r = x := fun hc => hx hc.symm
      simp [addDep, lookupDeps, this, hx]
  | cons p rest ih =>
    obtain ⟨k, es⟩ := p
    rw [addDep]
    by_cases hk : k = r
    · subst hk
      rw [if_pos rfl]
      by_cases hx : x = k
      · subst hx
        simp [lookupDeps]
      · have hkx : ¬ k = x := fun hc => hx hc.symm
        simp [lookupDeps, hkx, hx]
    · rw [if_neg hk]
      by_cases hx : x = k
      · subst hx
        have hxr : ¬ x = r := hk
        simp [lookupDeps, hxr]
      · have hkx : ¬ k = x := fun hc => hx hc.symm
        simp only [lookupDeps, hkx, if_false]
        rw [ih]
        by_cases hxr : x = r
        · subst hxr
          simp [lookupDeps, hk]
        · simp [lookupDeps, hxr]

theorem lookupDeps_removeDep (g : DepGraph) (r s x : Mech) :
    lookupDeps (removeDep g r s) x
      = if x = r then (lookupDeps g r).map (fun ds => ds.filter (fun m => m ≠ s))
        else lookupDeps g x := by
  induction g with
  | nil =>
    by_cases hx : x = r
    · subst hx
      simp [removeDep, lookupDeps]
    · simp [removeDep, lookupDeps, hx]
  | cons p rest ih =>
    obtain ⟨k, es⟩ := p
    rw [removeDep]
    by_cases hk : k = r
    · subst hk
      rw [if_pos rfl]
      by_cases hx : x = k
      · subst hx
        simp [lookupDeps]
      · have hkx : ¬ k = x := fun hc => hx hc.symm
        simp [lookupDeps, hkx, hx]
    · rw [if_neg hk]
      by_cases hx : x = k
      · subst hx
        have hxr : ¬ x = r := hk
        simp [lookupDeps, hxr]
      · have hkx : ¬ k = x := fun hc => hx hc.symm
        simp only [lookupDeps, hkx, if_false]
        rw [ih]
        by_cases hxr : x = r
        · subst hxr
          simp [lookupDeps, hk]
        · simp [lookupDeps, hxr]

theorem lookupDeps_setEmpty (g : DepGraph) (m x : Mech) :
    lookupDeps (setEmpty g m) x
      = if x = m then some [] else lookupDeps g x := by
  induction g with
  | nil =>
    by_cases hx : x = m
    · subst hx
      simp [setEmpty, lookupDeps]
    · have : ¬ m = x := fun hc => hx hc.symm
      simp [setEmpty, lookupDeps, this, hx]
  | cons p rest ih =>
    obtain ⟨k, es⟩ := p
    rw [setEmpty]
    by_cases hk : k = m
    · subst hk
      rw [if_pos rfl]
      by_cases hx : x = k
      · subst hx
        simp [lookupDeps]
      · have hkx : ¬ k = x := fun hc => hx hc.symm
        simp [lookupDeps, hkx, hx]
    · rw [if_neg hk]
      by_cases hx : x = k
      · subst hx
        have hxm : ¬ x = m := hk
        simp [lookupDeps, hxm]
      · have hkx : ¬ k = x := fun hc => hx hc.symm
        simp only [lookupDeps, hkx, if_false]
        rw [ih]

theorem depsOf_addDep (g : DepGraph) (r s x : Mech) :
    depsOf (addDep g r s) x
      = if x = r then (if s ∈ depsOf g r then depsOf g r else depsOf g r ++ [s])
        else depsOf g x := by
  rw [depsOf, lookupDeps_addDep]
  by_cases hx : x = r
  · subst hx
    rw [if_pos rfl, if_pos rfl, depsOf]
    cases hl : lookupDeps g x with
    | none => simp
    | some ds => simp
  · rw [if_neg hx, if_neg hx, depsOf]

theorem depsOf_removeDep (g : DepGraph) (r s x : Mech) :
    depsOf (removeDep g r s) x
      = if x = r then (depsOf g r).filter (fun m => m ≠ s)
        else depsOf g x := by
  rw [depsOf, lookupDeps_removeDep]
  by_cases hx : x = r
  · subst hx
    rw [if_pos rfl, if_pos rfl, depsOf]
    cases hl : lookupDeps g x with
    | none => simp
    | some ds => simp
  · rw [if_neg hx, if_neg hx, depsOf]

theorem depsOf_setEmpty (g : DepGraph) (m x : Mech) :
    depsOf (setEmpty g m) x = if x = m then [] else depsOf g x := by
  rw [depsOf, lookupDeps_setEmpty]
  by_cases hx : x = m
  · simp [hx]
  · rw [if_neg hx, if_neg hx, depsOf]

theorem acyclic_of_depsOf_subset {g1 g2 : DepGraph}
    (hsub : ∀ x, depsOf g1 x ⊆ depsOf g2 x) (h : Acyclic g2) : Acyclic g1 := by
  rintro ⟨a, ha⟩
  exact h ⟨a, ha.mono (fun x y hxy => ⟨hsub x hxy.1, hxy.2⟩)⟩

/-! ### The construction steps of `System._instantiate_graph` -/

/-- system.py lines 1434-1446 (the case `receiver in self.execution_graph`):
tentatively make `receiver` dependent on `sender` in `execution_graph`, run
`list(toposort(...))` on the whole graph, and on `ValueError` (a cycle) undo
the insertion with `self.execution_graph[receiver].remove(sender_mech)`. -/
def addDepChecked (eg : DepGraph) (receiver sender : Mech) : DepGraph :=
  let tentative := addDep eg receiver sender
  if (toposortLayers tentative).isSome then tentative
  else removeDep tentative receiver sender

/-- The `execution_graph` update for one traversed Projection
(system.py lines 1433-1468): the toposort-checked insertion when the
receiver is already a key, the unchecked insertion (`else` branch,
lines 1459-1468) when it is not. -/
def execGraphStep (eg : DepGraph) (receiver sender : Mech) : DepGraph :=
  if isKey eg receiver then addDepChecked eg receiver sender
  else addDep eg receiver sender

/-- system.py lines 1589-1597: `self.execution_sets = list(toposort(self.execution_graph))`,
where the `ValueError('Cyclic dependencies exist ...')` raised by the
library on a residual cycle is converted into a fatal
`SystemError("PROGRAM ERROR: cycle (feedback loop) in ... not detected by _instantiate_graph")`. -/
def instantiateExecutionSets (eg : DepGraph) : Except String (List (List Mech)) :=
  match toposortLayers eg with
  | some layers => Except.ok layers
  | none =>
      Except.error "PROGRAM ERROR: cycle (feedback loop) not detected by _instantiate_graph"

theorem depsOf_subset_addDep (g : DepGraph) (r s x : Mech) :
    depsOf g x ⊆ depsOf (addDep g r s) x := by
  intro y hy
  rw [depsOf_addDep]
  by_cases hx : x = r
  · subst hx
    rw [if_pos rfl]
    by_cases hs : s ∈ depsOf g x
    · rw [if_pos hs]; exact hy
    · rw [if_neg hs]; exact List.mem_append_left _ hy
  · rw [if_neg hx]; exact hy

theorem mem_depsOf_addDep_self (g : DepGraph) (r s : Mech) :
    s ∈ depsOf (addDep g r s) r := by
  rw [depsOf_addDep, if_pos rfl]
  by_cases hs : s ∈ depsOf g r
  · rw [if_pos hs]; exact hs
  · rw [if_neg hs]; exact List.mem_append_right _ (List.mem_singleton_self s)

theorem depsOf_addDep_subset (g : DepGraph) (r s x : Mech) :
    ∀ y ∈ depsOf (addDep g r s) x, y ∈ depsOf g x ∨ y = s := by
  intro y hy
  rw [depsOf_addDep] at hy
  by_cases hx : x = r
  · rw [if_pos hx] at hy
    by_cases hs : s ∈ depsOf g r
    · rw [if_pos hs] at hy
      subst hx
      exact Or.inl hy
    · rw [if_neg hs] at hy
      rcases List.mem_append.mp hy with hy | hy
      · subst hx; exact Or.inl hy
      · exact Or.inr (List.mem_singleton.mp hy)
  · rw [if_neg hx] at hy
    exact Or.inl hy

theorem depsOf_removeDep_subset (g : DepGraph) (r s x : Mech) :
    depsOf (removeDep g r s) x ⊆ depsOf g x := by
  intro y hy
  rw [depsOf_removeDep] at hy
  by_cases hx : x = r
  · rw [if_pos hx] at hy
    subst hx
    exact (List.mem_filter.mp hy).1
  · rw [if_neg hx] at hy
    exact hy

/-- The undo branch restores a sub-graph of the original: after
`add` followed by `remove`, every remaining dependency was already present
(only the defensive `remove` of an edge that predated the attempt can
shrink a set, cf. the `set.remove` semantics). -/
theorem depsOf_remove_add_subset (g : DepGraph) (r s x : Mech) :
    depsOf (removeDep (addDep g r s) r s) x ⊆ depsOf g x := by
  intro y hy
  rw [depsOf_removeDep] at hy
  by_cases hx : x = r
  · rw [if_pos hx] at hy
    have h1 := List.mem_filter.mp hy
    have h2 := depsOf_addDep_subset g r s r y h1.1
    rcases h2 with h2 | h2
    · rw [hx]
      exact h2
    · exact absurd (by simpa using h1.2) (by simp [h2])
  · rw [if_neg hx] at hy
    rw [depsOf_addDep, if_neg hx] at hy
    exact hy

/-- The toposort-checked insertion of system.py lines 1434-1446 preserves
acyclicity: either the tentative graph passes the `toposort` test (and is
therefore acyclic), or the dependency is removed again, leaving a sub-graph
of the acyclic input. -/
theorem addDepChecked_acyclic {eg : DepGraph} (receiver sender : Mech)
    (h : Acyclic eg) : Acyclic (addDepChecked eg receiver sender) := by
  rw [addDepChecked]
  by_cases hc : (toposortLayers (addDep eg receiver sender)).isSome
  · simp only [hc, if_true]
    exact (toposortLayers_isSome_iff _).mp hc
  · simp only [hc, if_false]
    exact acyclic_of_depsOf_subset (fun x => depsOf_remove_add_subset eg receiver sender x) h

/-! ### The paired update of `graph` and `execution_graph` -/

/-- The two graphs built side by side by `System._instantiate_graph`:
`self.graph` (the full dependency map) and `self.execution_graph`
(the cycle-pruned one). -/
structure SystemGraphs where
  graph : DepGraph
  execution_graph : DepGraph
deriving Repr

/-- One traversal event of `_instantiate_graph` that touches the graphs:
seeding a pathway's first Mechanism as an ORIGIN (lines 1509-1513), or
recording one traversed Projection `sender → receiver`
(lines 1414-1468). -/
inductive GraphEvent
  | seedOrigin (m : Mech)
  | projection (sender receiver : Mech)
deriving Repr

/-- Apply one traversal event:
* `seedOrigin m` — `self.graph[m] = set()` and
  `self.execution_graph[m] = set()` (lines 1511-1512);
* `projection s r` — `self.graph[r].add(s)` unconditionally
  (lines 1414-1417), followed by the `execution_graph` update: the
  toposort-checked insertion with removal on cycle when `r` is already a
  key (lines 1433-1457), the unchecked insertion otherwise
  (lines 1459-1468).  Nothing is ever removed from `self.graph`. -/
def applyGraphEvent (st : SystemGraphs) : GraphEvent → SystemGraphs
  | .seedOrigin m =>
      { graph := setEmpty st.graph m
        execution_graph := setEmpty st.execution_graph m }
  | .projection s r =>
      { graph := addDep st.graph r s
        execution_graph := execGraphStep st.execution_graph r s }

/-- Run `_instantiate_graph`'s traversal, abstracted as its sequence of
graph-touching events, from the empty pair of `OrderedDict`s
(lines 1476-1477). -/
def buildGraphs (events : List GraphEvent) : SystemGraphs :=
  events.foldl applyGraphEvent ⟨[], []⟩

/-- The data/order-separation invariant: every dependency recorded in
`execution_graph` is also recorded in `graph`. -/
def EdgeSubset (st : SystemGraphs) : Prop :=
  ∀ r, depsOf st.execution_graph r ⊆ depsOf st.graph r

theorem edgeSubset_applyGraphEvent {st : SystemGraphs} (e : GraphEvent)
    (h : EdgeSubset st) : EdgeSubset (applyGraphEvent st e) := by
  cases e with
  | seedOrigin m =>
    intro r y hy
    rw [applyGraphEvent] at hy ⊢
    simp only at hy ⊢
    rw [depsOf_setEmpty] at hy ⊢
    by_cases hr : r = m
    · rw [if_pos hr] at hy
      simp at hy
    · rw [if_neg hr] at hy
      rw [if_neg hr]
      exact h r hy
  | projection sender receiver =>
    intro r y hy
    rw [applyGraphEvent] at hy ⊢
    simp only at hy ⊢
    have hy' : y ∈ depsOf (addDep st.execution_graph receiver sender) r ∨
        y ∈ depsOf st.execution_graph r := by
      rw [execGraphStep] at hy
      by_cases hk : isKey st.execution_graph receiver
      · rw [if_pos hk, addDepChecked] at hy
        by_cases hc : (toposortLayers (addDep st.execution_graph receiver sender)).isSome
        · simp only [hc, if_true] at hy
          exact Or.inl hy
        · simp only [hc, if_false] at hy
          exact Or.inr (depsOf_remove_add_subset _ _ _ _ hy)
      · rw [if_neg hk] at hy
        exact Or.inl hy
    rcases hy' with hy' | hy'
    · by_cases hr : r = receiver
      · subst hr
        rcases depsOf_addDep_subset _ _ _ _ y hy' with hmem | hs
        · exact depsOf_subset_addDep _ _ _ _ (h r hmem)
        · subst hs
          exact mem_depsOf_addDep_self _ _ _
      · rw [depsOf_addDep, if_neg hr] at hy'
        exact depsOf_subset_addDep _ _ _ _ (h r hy')
    · exact depsOf_subset_addDep _ _ _ _ (h r hy')

/-! ### Roles (`mech.systems[self]`) and the cycle-detection role updates -/

/-- The role tags assigned by graph construction (`ORIGIN`, `TERMINAL`,
etc.). -/
inductive Role
  | ORIGIN
  | INTERNAL
  | SINGLETON
  | TERMINAL
  | CYCLE
  | INITIALIZE_CYCLE
  | LEARNING
  | CONTROL
  | TARGET
deriving DecidableEq, Repr

/-- The role table of one System: `mech.systems[self]`, or `none` when the
Mechanism's `systems` dict has no entry for this System.  A Mechanism holds
exactly one role per System; `_add_system(self, role)` overwrites it, so
two roles (for example `ORIGIN` and `CYCLE`) can never be held
simultaneously — the question is only whether a stronger role may be
overwritten. -/
def RoleMap := Mech → Option Role

/-- `mech._add_system(self, role)`: set this System's entry for `m`. -/
def addSystem (rm : RoleMap) (m : Mech) (role : Role) : RoleMap :=
  fun x => if x = m then some role else rm x

/-- The guard `mech.systems[self] in {ORIGIN, SINGLETON, TERMINAL}` used at
system.py lines 1448-1449 and 1454. -/
def strongRole : Option Role → Bool
  | some Role.ORIGIN => true
  | some Role.SINGLETON => true
  | some Role.TERMINAL => true
  | _ => false

/-- system.py lines 1447-1456, the `except ValueError` branch of the
processing-graph traversal, after the cyclic dependency has been removed:
`sender_mech` is assigned `INITIALIZE_CYCLE` unless its entry is already
`ORIGIN`, `SINGLETON` or `TERMINAL` (an absent entry — Python's
`not sender_mech.systems` — also gets the assignment), and `receiver` is
assigned `CYCLE` unless its entry is `ORIGIN`, `SINGLETON` or
`TERMINAL`. -/
def processingCycleRoles (rm : RoleMap) (sender receiver : Mech) : RoleMap :=
  if strongRole (rm sender) then
    if strongRole (rm receiver) then rm
    else addSystem rm receiver Role.CYCLE
  else
    if strongRole (addSystem rm sender Role.INITIALIZE_CYCLE receiver) then
      addSystem rm sender Role.INITIALIZE_CYCLE
    else addSystem (addSystem rm sender Role.INITIALIZE_CYCLE) receiver Role.CYCLE

/-- system.py lines 1890-1893, the `except ValueError` branch of
`_instantiate_learning_graph`: after the cyclic dependency is removed the
receiver is assigned `CYCLE` **unconditionally**
(`receiver._add_system(self, CYCLE)` with no role guard), and the sender is
left untouched (no `INITIALIZE_CYCLE` is assigned). -/
def learningCycleRoles (rm : RoleMap) (sender receiver : Mech) : RoleMap :=
  let _ := sender
  addSystem rm receiver Role.CYCLE

/-! ### `System._toposort_with_ordered_mechs` (system.py lines 3348-3354) -/

/-- The sort key: the Mechanism's `name`.  (The source's
`sorted(dependency_set, key=lambda item: next(d_iter).name)` pairs each
element, in CPython's single key-building pass over the iteration order,
with its own name, so the effective key of each element is its own
name.) -/
def nameLe (a b : Mech) : Bool := a.name ≤ b.name

/-- `sorted(dependency_set, key=...name)`: one toposort layer sorted by
Mechanism name. -/
def sortByName (l : List Mech) : List Mech :=
  l.mergeSort nameLe

/-- `System._toposort_with_ordered_mechs(data)`: flatten the toposort
layers of `data`, sorting each layer by Mechanism name (`none` when
`toposort` raises).  `self.execution_list` is this applied to
`self.execution_graph` (line 1600). -/
def toposortWithOrderedMechs (g : DepGraph) : Option (List Mech) :=
  (toposortLayers g).map (fun layers => (layers.map sortByName).flatten)

theorem nameLe_trans : ∀ a b c : Mech,
    nameLe a b = true → nameLe b c = true → nameLe a c = true := by
  intro a b c hab hbc
  rw [nameLe, decide_eq_true_eq] at hab hbc ⊢
  exact le_trans hab hbc

theorem nameLe_total : ∀ a b : Mech, (nameLe a b || nameLe b a) = true := by
  intro a b
  rw [nameLe, nameLe, Bool.or_eq_true, decide_eq_true_eq, decide_eq_true_eq]
  exact le_total a.name b.name

theorem sortByName_perm (l : List Mech) : (sortByName l).Perm l :=
  List.mergeSort_perm l nameLe

theorem sortByName_sorted (l : List Mech) :
    List.Pairwise (fun a b => nameLe a b = true) (sortByName l) :=
  List.sorted_mergeSort nameLe_trans nameLe_total l

/-- Two name-sorted permutations of each other with pairwise-distinct names
are equal (the determinism core of the name tie-break). -/
theorem sorted_perm_nodup_names_eq :
    ∀ (l1 l2 : List Mech), l1.Perm l2 →
      List.Pairwise (fun a b => nameLe a b = true) l1 →
      List.Pairwise (fun a b => nameLe a b = true) l2 →
      (l1.map Mech.name).Nodup → l1 = l2 := by
  intro l1
  induction l1 with
  | nil =>
    intro l2 hperm _ _ _
    exact List.Perm.nil_eq hperm
  | cons a t1 ih =>
    intro l2 hperm hs1 hs2 hnd
    cases l2 with
    | nil => exact absurd hperm.symm (by simp)
    | cons b t2 =>
      by_cases hab : a = b
      · subst hab
        have hperm' := hperm.cons_inv
        rw [List.pairwise_cons] at hs1 hs2
        rw [List.map_cons, List.nodup_cons] at hnd
        rw [ih t2 hperm' hs1.2 hs2.2 hnd.2]
      · have hain : a ∈ b :: t2 := hperm.subset (List.mem_cons_self a t1)
        have hbin : b ∈ a :: t1 := hperm.symm.subset (List.mem_cons_self b t2)
        have hat2 : a ∈ t2 := by
          rcases List.mem_cons.mp hain with h | h
          · exact absurd h hab
          · exact h
        have hbt1 : b ∈ t1 := by
          rcases List.mem_cons.mp hbin with h | h
          · exact absurd h.symm hab
          · exact h
        rw [List.pairwise_cons] at hs1 hs2
        have h1 : nameLe a b = true := hs1.1 b hbt1
        have h2 : nameLe b a = true := hs2.1 a hat2
        rw [nameLe, decide_eq_true_eq] at h1 h2
        have hname : a.name = b.name := le_antisymm h1 h2
        rw [List.map_cons, List.nodup_cons] at hnd
        exact absurd (hname ▸ (List.mem_map_of_mem Mech.name hbt1)) hnd.1

/-! ### `_instantiate_learning_graph`: the ObjectiveMechanism merge policy

system.py lines 1775-1802 (TERMINAL CONVERGENCE).  When an
ObjectiveMechanism `obj_mech` is encountered with the learning graph
already nonempty, and every Mechanism projecting to `obj_mech`'s SAMPLE
InputState also projects to another ObjectiveMechanism already present in
a dependency set of `learning_execution_graph`, then `obj_mech` is to be
replaced:  `sender_mech` is rebound to
`next((projection.receiver.owner for projection in
sample_mech.output_state.efferents if isinstance(projection.receiver.owner,
ObjectiveMechanism)), None)` (line 1791-1793; note: the *first*
ObjectiveMechanism receiver in efferent order, with **no** `is not
obj_mech` filter, although the in-code comment says "Get the *other*
ObjectiveMechanism ... (in addition to obj_mech)"), a replacement
MappingProjection `MappingProjection(sender=sender_mech,
receiver=error_signal_proj.receiver)` is created for every efferent of
`obj_mech.output_states[OUTCOME]` (lines 1798-1800), and it is
`sender_mech` — not `obj_mech` — that is entered into the learning graph
(`self.learningGraph[sender_mech] = None`, line 1818). -/

/-- Lines 1778-1788: all of the Mechanisms that project to `obj_mech`'s
SAMPLE InputState already project to another ObjectiveMechanism that is in
a dependency set of `learning_execution_graph`. -/
def terminalConvergence (isObj : Mech → Bool) (legraph : DepGraph)
    (efferentReceivers : Mech → List Mech) (objMech : Mech)
    (sampleAfferents : List Mech) : Bool :=
  sampleAfferents.all (fun mech =>
    (efferentReceivers mech).any (fun rm =>
      isObj rm && legraph.any (fun p => rm ∈ p.2) && rm ≠ objMech))

/-- The outcome of processing one encountered ObjectiveMechanism. -/
structure ObjMechMergeResult where
  /-- The Mechanism entered into the learning graph in place of (or as)
  the encountered ObjectiveMechanism (`none` models `next(..., None)`
  finding no ObjectiveMechanism, after which Python crashes on
  `None._add_process`). -/
  includedMech : Option Mech
  /-- Whether the TERMINAL-CONVERGENCE replacement fired. -/
  replaced : Bool
  /-- The newly created replacement MappingProjections, as
  `(sender, receiver)` pairs. -/
  rewiredProjections : List (Mech × Mech)
deriving DecidableEq, Repr

/-- The TERMINAL-CONVERGENCE decision of lines 1775-1802.
`outcomeReceivers` are the receivers of
`obj_mech.output_states[OUTCOME].efferents`; `sampleMech` is
`obj_mech.input_states[SAMPLE].path_afferents[0].sender.owner`. -/
def mergeObjMech (isObj : Mech → Bool) (legraph : DepGraph)
    (efferentReceivers : Mech → List Mech) (outcomeReceivers : List Mech)
    (objMech sampleMech : Mech) (sampleAfferents : List Mech) :
    ObjMechMergeResult :=
  if terminalConvergence isObj legraph efferentReceivers objMech sampleAfferents then
    match (efferentReceivers sampleMech).find? isObj with
    | some other =>
        { includedMech := some other
          replaced := true
          rewiredProjections := outcomeReceivers.map (fun rcvr => (other, rcvr)) }
    | none => { includedMech := none, replaced := true, rewiredProjections := [] }
  else
    { includedMech := some objMech, replaced := false, rewiredProjections := [] }

/-! ### `System._execute_learning` (system.py lines 2875-2982) -/

/-- The component kinds appearing in the learning scheduler's execution
sets (the legality check at lines 1697-1702 admits only LearningMechanisms
and ObjectiveMechanisms as graph senders, and MappingProjections as
learned receivers). -/
inductive LearningComponent
  | learningMech (m : Mech)
  | objectiveMech (m : Mech)
  | mappingProjection (m : Mech)
deriving DecidableEq, Repr

def isMappingProjection : LearningComponent → Bool
  | .mappingProjection _ => true
  | _ => false

/-- The component-level events `_execute_learning` performs. -/
inductive LearningEvent
  | execute (c : LearningComponent)
  | updateMatrix (c : LearningComponent)
deriving DecidableEq, Repr

/-- `System._execute_learning`, as the sequence of component-level events
it performs: a first pass over the learning scheduler's execution sets
executing every component that is not a MappingProjection (lines
2909-2941: `if isinstance(component, MappingProjection): continue` then
`component.execute(...)`), followed by a second pass over the same
execution sets updating the MATRIX ParameterState of every
MappingProjection (lines 2946-2976: `if isinstance(component,
(LearningMechanism, ObjectiveMechanism)): continue` then
`component._parameter_states[MATRIX].update(...)`). -/
def executeLearning (sets : List (List LearningComponent)) : List LearningEvent :=
  (sets.flatten.filterMap (fun c =>
      if isMappingProjection c then none else some (LearningEvent.execute c)))
    ++ (sets.flatten.filterMap (fun c =>
      if isMappingProjection c then some (LearningEvent.updateMatrix c) else none))

/-! ### `System.execute` (system.py lines 2573-2793) -/

/-- A State value / Mechanism variable (a vector of numbers; the numeric
type is irrelevant to the graph/scheduling claims). -/
abbrev Val := List Int

/-- The `input` argument of `System.execute`: `None`, a regular list/array
of per-ORIGIN-Mechanism items, or an irregularly-shaped (`dtype('O')`)
numpy object array, which carries both its top-level items and its
`np.size` (total element count). -/
inductive SysInput
  | noInput
  | regular (items : List Val)
  | objectArray (items : List Val) (size : Nat)
deriving DecidableEq, Repr

def SysInput.itemsOf : SysInput → List Val
  | .noInput => []
  | .regular items => items
  | .objectArray items _ => items

def SysInput.isObjectArray : SysInput → Bool
  | .objectArray _ _ => true
  | _ => false

def SysInput.npSize : SysInput → Nat
  | .noInput => 0
  | .regular items => items.length
  | .objectArray _ size => size

/-- The configuration of a System relevant to one `execute` call. -/
structure SysConfig where
  /-- `instance_defaults.variable` of each ORIGIN Mechanism, in
  `origin_mechanisms` order (used to build the default input,
  lines 2684-2686). -/
  originDefaults : List Val
  /-- `self.enable_controller`. -/
  enableController : Bool
  /-- `self.controller` (`None` possible: `enable_controller` can be set
  with no controller assigned). -/
  controller : Option Mech
  /-- `self.learning`. -/
  learningEnabled : Bool
  /-- `self.context.execution_phase == ContextFlags.SIMULATION` at entry
  (a controller-simulation run). -/
  isSimulation : Bool
deriving DecidableEq, Repr

/-- The mutable System state the execute-phase claims are about: the
values of the SystemInputStates feeding the ORIGIN Mechanisms (one
external InputState per ORIGIN Mechanism here), and
`self.terminal_mechanisms.outputStateValues` (the output-state values of
the TERMINAL Mechanisms, in `terminal_mechanisms` order). -/
structure SysState where
  systemInputValues : List Val
  terminalOutputs : List Val
deriving DecidableEq, Repr

/-- system.py lines 2688-2699: with a non-`None` input, raise
`SystemError("Number of items in input ... does not match its number of
origin Mechanisms ...")` unless `len(input)` equals the number of ORIGIN
Mechanisms, or the input is a `dtype('O')` ndarray whose `np.size` equals
that number. -/
def checkInput (input : SysInput) (numOrigin : Nat) : Except String Unit :=
  match input with
  | .noInput => Except.ok ()
  | .regular items =>
      if items.length = numOrigin then Except.ok ()
      else Except.error "Number of items in input does not match its number of origin Mechanisms"
  | .objectArray items size =>
      if items.length = numOrigin then Except.ok ()
      else if size = numOrigin then Except.ok ()
      else Except.error "Number of items in input does not match its number of origin Mechanisms"

/-- system.py line 2716 (`system_input_state.value = input[j]`): each
ORIGIN Mechanism's SystemInputState receives the input item indexed by its
InputState position `j` (here `j = 0`, one external InputState per ORIGIN
Mechanism).  `headD` keeps the old value in the empty-input case, which is
unreachable once validation has passed for a System with at least one
ORIGIN Mechanism. -/
def writeSystemInputs (input : List Val) (vals : List Val) : List Val :=
  vals.map (fun v => input.headD v)

/-- system.py lines 2678-2723 (ASSIGN INPUTS): with `input=None` the
default input is constructed from each ORIGIN Mechanism's
`instance_defaults.variable` (lines 2680-2686) and the SystemInputStates
are **not** written (the assignment loop at lines 2701-2721 is inside the
`else` branch); with an explicit input, the cardinality check runs and the
SystemInputStates are written.  Returns the value bound to `self.input`
and the updated state. -/
def initInputs (cfg : SysConfig) (input : SysInput) (st : SysState) :
    Except String (List Val × SysState) :=
  match input with
  | SysInput.noInput => Except.ok (cfg.originDefaults, st)
  | _ =>
      match checkInput input cfg.originDefaults.length with
      | Except.error e => Except.error e
      | Except.ok _ =>
          Except.ok (input.itemsOf,
            { st with systemInputValues :=
                writeSystemInputs input.itemsOf st.systemInputValues })

/-- The phase-level events of one `System.execute` call. -/
inductive TrialEvent
  | processing
  | learning
  | controllerExec (c : Mech)
deriving DecidableEq, Repr

/-- `System.execute` (system.py lines 2638-2793), with the three phase
bodies (`self._execute_processing`, `self._execute_learning`,
`self.controller.execute`) abstracted as state transformers:
1. ASSIGN INPUTS (lines 2678-2723);
2. PROCESSING (line 2744), after which `outcome =
   self.terminal_mechanisms.outputStateValues` is captured (line 2747);
3. LEARNING (lines 2755-2764), only when not a SIMULATION run and
   `self.learning`;
4. CONTROL (lines 2771-2786), only when not a SIMULATION run and
   `self.enable_controller`; with no controller assigned the attribute
   access `self.controller.context` at line 2773 raises `AttributeError`
   before any execution;
5. `return outcome` (line 2793).
Returns the returned value, the final state, and the phase trace. -/
def executeTrial (cfg : SysConfig) (input : SysInput) (st : SysState)
    (procPhase learnPhase ctrlPhase : SysState → SysState) :
    Except String (List Val × SysState × List TrialEvent) :=
  match initInputs cfg input st with
  | Except.error e => Except.error e
  | Except.ok (_inp, st0) =>
      let st1 := procPhase st0
      let outcome := st1.terminalOutputs
      let st2 := if !cfg.isSimulation && cfg.learningEnabled then learnPhase st1 else st1
      let ev2 : List TrialEvent :=
        if !cfg.isSimulation && cfg.learningEnabled then [TrialEvent.learning] else []
      if !cfg.isSimulation && cfg.enableController then
        match cfg.controller with
        | none => Except.error "AttributeError: NoneType object has no attribute context"
        | some c =>
            Except.ok (outcome, ctrlPhase st2,
              TrialEvent.processing :: ev2 ++ [TrialEvent.controllerExec c])
      else
        Except.ok (outcome, st2, TrialEvent.processing :: ev2)

def isControllerEvent : TrialEvent → Bool
  | TrialEvent.controllerExec _ => true
  | _ => false

/-! ### Concrete Mechanisms used by witnesses and counterexamples -/

def mA : Mech := ⟨0, "A"⟩

def mB : Mech := ⟨1, "B"⟩

def mC : Mech := ⟨2, "C"⟩

def mD : Mech := ⟨3, "D"⟩

/-! ### The claims -/

/-- C1.  For every System whose graph construction (`_instantiate_graph`)
completes without raising, the resulting `execution_graph` is acyclic: the
topological sort that builds `execution_sets` (lines 1589-1597) succeeds
exactly on acyclic graphs, a residual cycle makes it raise the fatal
`SystemError('PROGRAM ERROR ...')` rather than being tolerated, and the
incremental toposort check of the cycle-breaking step (lines 1434-1446)
preserves acyclicity. -/
theorem claim1_execution_graph_acyclic :
    (∀ (events : List GraphEvent) (sets : List (List Mech)),
        instantiateExecutionSets (buildGraphs events).execution_graph = Except.ok sets →
        Acyclic (buildGraphs events).execution_graph) ∧
    (∀ events : List GraphEvent,
        HasCycle (buildGraphs events).execution_graph →
        instantiateExecutionSets (buildGraphs events).execution_graph
          = Except.error
              "PROGRAM ERROR: cycle (feedback loop) not detected by _instantiate_graph") ∧
    (∀ (eg : DepGraph) (receiver sender : Mech),
        Acyclic eg → Acyclic (addDepChecked eg receiver sender)) := by
  refine ⟨?_, ?_, ?_⟩
  · intro events sets h
    cases hl : toposortLayers (buildGraphs events).execution_graph with
    | some layers => exact toposortLayers_some_acyclic hl
    | none =>
      rw [instantiateExecutionSets, hl] at h
      exact absurd h (by simp)
  · intro events hcyc
    cases hl : toposortLayers (buildGraphs events).execution_graph with
    | some layers => exact absurd hcyc (toposortLayers_some_acyclic hl)
    | none => rw [instantiateExecutionSets, hl]
  · intro eg receiver sender h
    exact addDepChecked_acyclic receiver sender h

/-- Closed witness for C1: a one-Projection System whose gate succeeds (and
is certified acyclic), a two-Projection feedback System whose residual
cycle raises the PROGRAM-ERROR `SystemError`, and a checked insertion on
the acyclic graph that stays acyclic. -/
theorem claim1_execution_graph_acyclic_witness :
    Acyclic (buildGraphs [GraphEvent.projection mA mB]).execution_graph ∧
    instantiateExecutionSets
        (buildGraphs [GraphEvent.projection mA mB,
                      GraphEvent.projection mB mA]).execution_graph
      = Except.error
          "PROGRAM ERROR: cycle (feedback loop) not detected by _instantiate_graph" ∧
    Acyclic (addDepChecked (buildGraphs [GraphEvent.projection mA mB]).execution_graph mA mB) := by
  refine ⟨claim1_execution_graph_acyclic.1 [GraphEvent.projection mA mB] [[mA], [mB]] rfl,
    ?_,
    claim1_execution_graph_acyclic.2.2 _ mA mB
      (claim1_execution_graph_acyclic.1 [GraphEvent.projection mA mB] [[mA], [mB]] rfl)⟩
  apply claim1_execution_graph_acyclic.2.1
  exact ⟨mB, Relation.TransGen.head
    (show edgeTo
        (buildGraphs [GraphEvent.projection mA mB, GraphEvent.projection mB mA]).execution_graph
        mB mA from ⟨by decide, by decide⟩)
    (Relation.TransGen.single (show edgeTo
        (buildGraphs [GraphEvent.projection mA mB, GraphEvent.projection mB mA]).execution_graph
        mA mB from ⟨by decide, by decide⟩))⟩

/-- C2.  A dependency whose insertion would create a cycle is removed only
from `execution_graph` and stays in `graph`: for every receiver,
`execution_graph[receiver] ⊆ graph[receiver]` throughout construction; a
Projection event never deletes an edge from `graph`; and after a
Projection event the traversed dependency is always present in `graph`
(even when cycle-breaking dropped it from `execution_graph`). -/
theorem claim2_cycle_break_preserves_graph :
    (∀ (events : List GraphEvent) (r : Mech),
        depsOf (buildGraphs events).execution_graph r ⊆
          depsOf (buildGraphs events).graph r) ∧
    (∀ (st : SystemGraphs) (sender receiver x y : Mech),
        y ∈ depsOf st.graph x →
        y ∈ depsOf (applyGraphEvent st (GraphEvent.projection sender receiver)).graph x) ∧
    (∀ (st : SystemGraphs) (sender receiver : Mech),
        sender ∈ depsOf (applyGraphEvent st (GraphEvent.projection sender receiver)).graph
          receiver) := by
  refine ⟨?_, ?_, ?_⟩
  · intro events
    have hinv : ∀ (evs : List GraphEvent) (st : SystemGraphs), EdgeSubset st →
        EdgeSubset (evs.foldl applyGraphEvent st) := by
      intro evs
      induction evs with
      | nil => intro st h; exact h
      | cons e rest ih => intro st h; exact ih _ (edgeSubset_applyGraphEvent e h)
    have h0 : EdgeSubset ⟨[], []⟩ := by
      intro r y hy
      simp [depsOf, lookupDeps] at hy
    exact hinv events ⟨[], []⟩ h0
  · intro st sender receiver x y hy
    show y ∈ depsOf (addDep st.graph receiver sender) x
    exact depsOf_subset_addDep _ _ _ _ hy
  · intro st sender receiver
    show sender ∈ depsOf (addDep st.graph receiver sender) receiver
    exact mem_depsOf_addDep_self _ _ _

/-- Closed witness for C2, on the feedback System
`seed A; A→B; B→A`: cycle-breaking drops `B ∈ execution_graph[A]` but
`B ∈ graph[A]` survives, and the remaining `execution_graph` edge is
contained in `graph`. -/
theorem claim2_cycle_break_preserves_graph_witness :
    mA ∈ depsOf (buildGraphs [GraphEvent.seedOrigin mA, GraphEvent.projection mA mB,
        GraphEvent.projection mB mA]).graph mB ∧
    mB ∈ depsOf (applyGraphEvent (buildGraphs [GraphEvent.seedOrigin mA,
        GraphEvent.projection mA mB]) (GraphEvent.projection mB mA)).graph mA :=
  ⟨claim2_cycle_break_preserves_graph.1
      [GraphEvent.seedOrigin mA, GraphEvent.projection mA mB, GraphEvent.projection mB mA]
      mB (by decide),
   claim2_cycle_break_preserves_graph.2.2
      (buildGraphs [GraphEvent.seedOrigin mA, GraphEvent.projection mA mB]) mB mA⟩

/-- C3.  The flattened `execution_list` is deterministic: within each
execution set the Mechanisms are emitted sorted by Mechanism name, so two
constructions whose toposort layers agree up to (set-iteration-order)
permutation — with Node names distinct — flatten to the identical list;
and `execution_list` is exactly the concatenation of the name-sorted
layers of `execution_graph`. -/
theorem claim3_execution_list_deterministic :
    (∀ layers1 layers2 : List (List Mech),
        List.Forall₂ (fun l1 l2 => l1.Perm l2) layers1 layers2 →
        (∀ l ∈ layers1, (l.map Mech.name).Nodup) →
        (layers1.map sortByName).flatten = (layers2.map sortByName).flatten) ∧
    (∀ l : List Mech, List.Pairwise (fun a b => nameLe a b = true) (sortByName l)) ∧
    (∀ (g : DepGraph) (layers : List (List Mech)), toposortLayers g = some layers →
        toposortWithOrderedMechs g = some ((layers.map sortByName).flatten)) := by
  refine ⟨?_, sortByName_sorted, ?_⟩
  · intro layers1 layers2 hperm
    induction hperm with
    | nil => intro _; rfl
    | @cons l1 l2 t1 t2 h1 _ ih =>
      intro hnd
      have hhead : sortByName l1 = sortByName l2 := by
        have hnd1 : (l1.map Mech.name).Nodup := hnd l1 (List.mem_cons_self _ _)
        have hpm : (sortByName l1).Perm (sortByName l2) :=
          (sortByName_perm l1).trans (h1.trans (sortByName_perm l2).symm)
        have hnds : ((sortByName l1).map Mech.name).Nodup :=
          (((sortByName_perm l1).map Mech.name).nodup_iff).mpr hnd1
        exact sorted_perm_nodup_names_eq _ _ hpm
          (sortByName_sorted l1) (sortByName_sorted l2) hnds
      have htail := ih (fun l hl => hnd l (List.mem_cons_of_mem _ hl))
      simp only [List.map_cons, List.flatten_cons, hhead, htail]
  · intro g layers hl
    rw [toposortWithOrderedMechs, hl, Option.map_some']

/-- Closed witness for C3: two iteration orders of the same two-element
layer flatten identically, and the `execution_list` of a concrete graph is
the sorted flattening of its layers. -/
theorem claim3_execution_list_deterministic_witness :
    ([[mB, mA], [mC]].map sortByName).flatten = ([[mA, mB], [mC]].map sortByName).flatten ∧
    toposortWithOrderedMechs [(mB, [mA]), (mC, [mB])]
      = some (([[mA], [mB], [mC]].map sortByName).flatten) :=
  ⟨claim3_execution_list_deterministic.1 [[mB, mA], [mC]] [[mA, mB], [mC]]
      (List.Forall₂.cons (by decide) (List.Forall₂.cons (by decide) List.Forall₂.nil))
      (by decide),
   claim3_execution_list_deterministic.2.2 [(mB, [mA]), (mC, [mB])] [[mA], [mB], [mC]] rfl⟩

/-- A role table holding `TERMINAL` for `mA` (and nothing else). -/
def rmTerminalA : RoleMap := fun x => if x = mA then some Role.TERMINAL else none

/-- Counterexample to C4 as stated: in the learning-graph construction
(system.py line 1892) `CYCLE` is assigned to the receiver
**unconditionally** — here a receiver already holding `TERMINAL` is
overwritten with `CYCLE`, which the claim says happens in neither graph
construction. -/
theorem claim4_counterexample :
    rmTerminalA mA = some Role.TERMINAL ∧
    learningCycleRoles rmTerminalA mB mA mA = some Role.CYCLE := by
  constructor
  · decide
  · decide

/-- C4 (amended).  In the processing-graph construction the guards hold as
claimed: on cycle detection `INITIALIZE_CYCLE` is assigned to the sender
only if it does not already hold `ORIGIN`, `SINGLETON` or `TERMINAL`, and
`CYCLE` is assigned to the receiver only under the same guard (roles are
single-valued per (Mechanism, System), so `ORIGIN`/`TERMINAL` can never be
*paired* with `CYCLE` — the guard prevents their being overwritten).  In
the learning-graph construction, however, `CYCLE` is assigned to the
receiver unconditionally and the sender is never assigned
`INITIALIZE_CYCLE`. -/
theorem claim4_cycle_role_guards :
    (∀ (rm : RoleMap) (sender receiver : Mech),
        strongRole (rm sender) = true →
        processingCycleRoles rm sender receiver sender = rm sender) ∧
    (∀ (rm : RoleMap) (sender receiver : Mech),
        strongRole (rm sender) = false → sender ≠ receiver →
        processingCycleRoles rm sender receiver sender = some Role.INITIALIZE_CYCLE) ∧
    (∀ (rm : RoleMap) (sender receiver : Mech),
        strongRole (rm receiver) = true →
        processingCycleRoles rm sender receiver receiver = rm receiver) ∧
    (∀ (rm : RoleMap) (sender receiver : Mech),
        strongRole (rm receiver) = false → sender ≠ receiver →
        processingCycleRoles rm sender receiver receiver = some Role.CYCLE) ∧
    (∀ (rm : RoleMap) (sender receiver : Mech),
        learningCycleRoles rm sender receiver receiver = some Role.CYCLE) ∧
    (∀ (rm : RoleMap) (sender receiver x : Mech), x ≠ receiver →
        learningCycleRoles rm sender receiver x = rm x) := by
  have haddSelf : ∀ (rm : RoleMap) (m : Mech) (role : Role),
      addSystem rm m role m = some role := by
    intro rm m role
    simp [addSystem]
  have haddOther : ∀ (rm : RoleMap) (m x : Mech) (role : Role), x ≠ m →
      addSystem rm m role x = rm x := by
    intro rm m x role hx
    simp [addSystem, hx]
  refine ⟨?_, ?_, ?_, ?_, ?_, ?_⟩
  · intro rm sender receiver hs
    rw [processingCycleRoles, if_pos hs]
    by_cases hr : strongRole (rm receiver) = true
    · rw [if_pos hr]
    · rw [if_neg hr]
      by_cases hsr : sender = receiver
      · rw [hsr] at hs
        exact absurd hs hr
      · exact haddOther rm receiver sender Role.CYCLE hsr
  · intro rm sender receiver hs hne
    rw [processingCycleRoles, if_neg (by rw [hs]; exact Bool.false_ne_true)]
    by_cases hr : strongRole (addSystem rm sender Role.INITIALIZE_CYCLE receiver) = true
    · rw [if_pos hr]
      exact haddSelf rm sender Role.INITIALIZE_CYCLE
    · rw [if_neg hr]
      rw [haddOther _ receiver sender Role.CYCLE hne]
      exact haddSelf rm sender Role.INITIALIZE_CYCLE
  · intro rm sender receiver hr
    rw [processingCycleRoles]
    by_cases hs : strongRole (rm sender) = true
    · rw [if_pos hs, if_pos hr]
    · rw [if_neg hs]
      by_cases hsr : sender = receiver
      · rw [← hsr] at hr
        exact absurd hr hs
      · have hrec : addSystem rm sender Role.INITIALIZE_CYCLE receiver = rm receiver :=
          haddOther rm sender receiver Role.INITIALIZE_CYCLE (fun hc => hsr hc.symm)
        rw [hrec, if_pos hr]
        exact hrec
  · intro rm sender receiver hr hne
    rw [processingCycleRoles]
    by_cases hs : strongRole (rm sender) = true
    · rw [if_pos hs, if_neg (by rw [hr]; exact Bool.false_ne_true)]
      exact haddSelf rm receiver Role.CYCLE
    · rw [if_neg hs]
      have hrec : addSystem rm sender Role.INITIALIZE_CYCLE receiver = rm receiver :=
        haddOther rm sender receiver Role.INITIALIZE_CYCLE (fun hc => hne hc.symm)
      rw [hrec, if_neg (by rw [hr]; exact Bool.false_ne_true)]
      exact haddSelf _ receiver Role.CYCLE
  · intro rm sender receiver
    rw [learningCycleRoles]
    exact haddSelf rm receiver Role.CYCLE
  · intro rm sender receiver x hx
    rw [learningCycleRoles]
    exact haddOther rm receiver x Role.CYCLE hx

/-- Closed witness for C4 (amended): an `ORIGIN` sender keeps its role, an
unlabelled sender is assigned `INITIALIZE_CYCLE`, an `ORIGIN` receiver
keeps its role, an `INTERNAL` receiver is assigned `CYCLE`, and the
learning branch leaves the sender untouched. -/
theorem claim4_cycle_role_guards_witness :
    processingCycleRoles rmTerminalA mA mB mA = rmTerminalA mA ∧
    processingCycleRoles rmTerminalA mB mA mB = some Role.INITIALIZE_CYCLE ∧
    processingCycleRoles rmTerminalA mB mA mA = rmTerminalA mA ∧
    processingCycleRoles rmTerminalA mA mB mB = some Role.CYCLE ∧
    learningCycleRoles rmTerminalA mB mA mA = some Role.CYCLE ∧
    learningCycleRoles rmTerminalA mB mA mB = rmTerminalA mB :=
  ⟨claim4_cycle_role_guards.1 rmTerminalA mA mB (by decide),
   claim4_cycle_role_guards.2.1 rmTerminalA mB mA (by decide) (by decide),
   claim4_cycle_role_guards.2.2.1 rmTerminalA mB mA (by decide),
   claim4_cycle_role_guards.2.2.2.1 rmTerminalA mA mB (by decide) (by decide),
   claim4_cycle_role_guards.2.2.2.2.1 rmTerminalA mB mA,
   claim4_cycle_role_guards.2.2.2.2.2 rmTerminalA mB mA mB (by decide)⟩

/-- C5.  In `_execute_learning` the two passes are strictly ordered: every
LearningMechanism/ObjectiveMechanism execution event happens before every
MappingProjection weight-matrix update event; the first pass executes
exactly the non-MappingProjection components and the second pass updates
exactly the MappingProjections.  Hence no weight-matrix update precedes
any error-signal computation. -/
theorem claim5_learning_two_pass :
    (∀ (sets : List (List LearningComponent)) (i j : Nat)
        (hi : i < (executeLearning sets).length)
        (hj : j < (executeLearning sets).length),
        (∃ c, (executeLearning sets).get ⟨i, hi⟩ = LearningEvent.updateMatrix c) →
        (∃ c, (executeLearning sets).get ⟨j, hj⟩ = LearningEvent.execute c) →
        j < i) ∧
    (∀ (sets : List (List LearningComponent)) (c : LearningComponent),
        LearningEvent.updateMatrix c ∈ executeLearning sets →
        isMappingProjection c = true) ∧
    (∀ (sets : List (List LearningComponent)) (c : LearningComponent),
        LearningEvent.execute c ∈ executeLearning sets →
        isMappingProjection c = false) := by
  have hA : ∀ (sets : List (List LearningComponent)) (e : LearningEvent),
      e ∈ sets.flatten.filterMap (fun c =>
          if isMappingProjection c then none else some (LearningEvent.execute c)) →
      ∃ c, e = LearningEvent.execute c ∧ isMappingProjection c = false := by
    intro sets e he
    rw [List.mem_filterMap] at he
    obtain ⟨c, _, hc⟩ := he
    by_cases hm : isMappingProjection c = true
    · rw [if_pos hm] at hc
      exact absurd hc (by simp)
    · rw [if_neg hm] at hc
      exact ⟨c, (Option.some_inj.mp hc).symm, Bool.not_eq_true _ ▸ hm⟩
  have hB : ∀ (sets : List (List LearningComponent)) (e : LearningEvent),
      e ∈ sets.flatten.filterMap (fun c =>
          if isMappingProjection c then some (LearningEvent.updateMatrix c) else none) →
      ∃ c, e = LearningEvent.updateMatrix c ∧ isMappingProjection c = true := by
    intro sets e he
    rw [List.mem_filterMap] at he
    obtain ⟨c, _, hc⟩ := he
    by_cases hm : isMappingProjection c = true
    · rw [if_pos hm] at hc
      exact ⟨c, (Option.some_inj.mp hc).symm, hm⟩
    · rw [if_neg hm] at hc
      exact absurd hc (by simp)
  refine ⟨?_, ?_, ?_⟩
  · intro sets i j hi hj hupd hexe
    obtain ⟨cu, hcu⟩ := hupd
    obtain ⟨ce, hce⟩ := hexe
    set A := sets.flatten.filterMap (fun c =>
        if isMappingProjection c then none else some (LearningEvent.execute c)) with hAdef
    set B := sets.flatten.filterMap (fun c =>
        if isMappingProjection c then some (LearningEvent.updateMatrix c) else none) with hBdef
    have hEL : executeLearning sets = A ++ B := rfl
    have hiA : ¬ i < A.length := by
      intro hlt
      have hmem : (executeLearning sets).get ⟨i, hi⟩ ∈ A := by
        have hgeteq : (executeLearning sets).get ⟨i, hi⟩ = A[i] := by
          rw [List.get_eq_getElem]
          exact List.getElem_append_left hlt
        rw [hgeteq]
        exact List.getElem_mem hlt
      obtain ⟨c, hc, _⟩ := hA sets _ hmem
      rw [hcu] at hc
      exact LearningEvent.noConfusion hc
    have hjA : j < A.length := by
      by_contra hge
      have hgeA : A.length ≤ j := Nat.le_of_not_lt hge
      have hjB : j - A.length < B.length := by
        have : (executeLearning sets).length = A.length + B.length := by
          rw [hEL, List.length_append]
        omega
      have hmem : (executeLearning sets).get ⟨j, hj⟩ ∈ B := by
        have hgeteq : (executeLearning sets).get ⟨j, hj⟩ = B[j - A.length] := by
          rw [List.get_eq_getElem]
          exact List.getElem_append_right hgeA
        rw [hgeteq]
        exact List.getElem_mem hjB
      obtain ⟨c, hc, _⟩ := hB sets _ hmem
      rw [hce] at hc
      exact LearningEvent.noConfusion hc
    omega
  · intro sets c hmem
    have : LearningEvent.updateMatrix c ∈
        sets.flatten.filterMap (fun c =>
          if isMappingProjection c then none else some (LearningEvent.execute c))
        ∨ LearningEvent.updateMatrix c ∈
        sets.flatten.filterMap (fun c =>
          if isMappingProjection c then some (LearningEvent.updateMatrix c) else none) := by
      rw [executeLearning, List.mem_append] at hmem
      exact hmem
    rcases this with h | h
    · obtain ⟨c', hc', _⟩ := hA sets _ h
      exact absurd hc' (by simp)
    · obtain ⟨c', hc', hm⟩ := hB sets _ h
      have : c = c' := by
        injection hc'
      rw [this]
      exact hm
  · intro sets c hmem
    have : LearningEvent.execute c ∈
        sets.flatten.filterMap (fun c =>
          if isMappingProjection c then none else some (LearningEvent.execute c))
        ∨ LearningEvent.execute c ∈
        sets.flatten.filterMap (fun c =>
          if isMappingProjection c then some (LearningEvent.updateMatrix c) else none) := by
      rw [executeLearning, List.mem_append] at hmem
      exact hmem
    rcases this with h | h
    · obtain ⟨c', hc', hm⟩ := hA sets _ h
      have : c = c' := by
        injection hc'
      rw [this]
      exact hm
    · obtain ⟨c', hc', _⟩ := hB sets _ h
      exact absurd hc' (by simp)

/-- Closed witness for C5, on a two-set learning schedule holding a
LearningMechanism, an ObjectiveMechanism and a MappingProjection: the
matrix update (index 2) comes after both executions (indices 0-1). -/
theorem claim5_learning_two_pass_witness :
    (1 : Nat) < 2 ∧
    isMappingProjection (LearningComponent.mappingProjection mC) = true ∧
    isMappingProjection (LearningComponent.learningMech mA) = false :=
  ⟨claim5_learning_two_pass.1
      [[LearningComponent.objectiveMech mB, LearningComponent.learningMech mA],
       [LearningComponent.mappingProjection mC]] 2 1 (by decide) (by decide)
      ⟨LearningComponent.mappingProjection mC, by decide⟩
      ⟨LearningComponent.learningMech mA, by decide⟩,
   claim5_learning_two_pass.2.1
      [[LearningComponent.objectiveMech mB, LearningComponent.learningMech mA],
       [LearningComponent.mappingProjection mC]]
      (LearningComponent.mappingProjection mC) (by decide),
   claim5_learning_two_pass.2.2
      [[LearningComponent.objectiveMech mB, LearningComponent.learningMech mA],
       [LearningComponent.mappingProjection mC]]
      (LearningComponent.learningMech mA) (by decide)⟩

/-- C6.  In every `System.execute` call that completes, the controller is
executed at most once, only when `enable_controller` is set, a controller
is assigned and the run is not a SIMULATION, and only as the last phase —
after the processing and (any) learning events. -/
theorem claim6_controller_phase :
    ∀ (cfg : SysConfig) (input : SysInput) (st : SysState)
      (procPhase learnPhase ctrlPhase : SysState → SysState)
      (out : List Val) (st' : SysState) (tr : List TrialEvent),
      executeTrial cfg input st procPhase learnPhase ctrlPhase = Except.ok (out, st', tr) →
      (tr.filter isControllerEvent).length ≤ 1 ∧
      (∀ c, TrialEvent.controllerExec c ∈ tr →
          cfg.enableController = true ∧ cfg.isSimulation = false ∧
          cfg.controller = some c) ∧
      (∀ c, TrialEvent.controllerExec c ∈ tr →
          tr.getLast? = some (TrialEvent.controllerExec c)) ∧
      TrialEvent.processing ∈ tr := by
  intro cfg input st procPhase learnPhase ctrlPhase out st' tr h
  rw [executeTrial] at h
  cases hinit : initInputs cfg input st with
  | error e =>
    rw [hinit] at h
    exact absurd h (by simp)
  | ok p =>
    obtain ⟨inp, st0⟩ := p
    rw [hinit] at h
    simp only at h
    by_cases hctl : (!cfg.isSimulation && cfg.enableController) = true
    · rw [Bool.and_eq_true, Bool.not_eq_true'] at hctl
      cases hcon : cfg.controller with
      | none =>
        rw [if_pos (by rw [hctl.1, hcon] at *; simp [hctl.2]), hcon] at h
        exact absurd h (by simp)
      | some c0 =>
        rw [if_pos (by rw [Bool.and_eq_true, Bool.not_eq_true']; exact hctl), hcon] at h
        rw [Except.ok.injEq, Prod.mk.injEq, Prod.mk.injEq] at h
        obtain ⟨-, -, htr⟩ := h
        subst htr
        by_cases hl : (!cfg.isSimulation && cfg.learningEnabled) = true
        · rw [if_pos hl]
          refine ⟨by simp [isControllerEvent], ?_, ?_, by simp⟩
          · intro c hc
            simp [TrialEvent.controllerExec.injEq] at hc
            subst hc
            exact ⟨hctl.2, hctl.1, rfl⟩
          · intro c hc
            simp [TrialEvent.controllerExec.injEq] at hc
            subst hc
            rfl
        · rw [if_neg hl]
          refine ⟨by simp [isControllerEvent], ?_, ?_, by simp⟩
          · intro c hc
            simp [TrialEvent.controllerExec.injEq] at hc
            subst hc
            exact ⟨hctl.2, hctl.1, rfl⟩
          · intro c hc
            simp [TrialEvent.controllerExec.injEq] at hc
            subst hc
            rfl
    · rw [if_neg hctl] at h
      rw [Except.ok.injEq, Prod.mk.injEq, Prod.mk.injEq] at h
      obtain ⟨-, -, htr⟩ := h
      subst htr
      by_cases hl : (!cfg.isSimulation && cfg.learningEnabled) = true
      · rw [if_pos hl]
        refine ⟨by simp [isControllerEvent], ?_, ?_, by simp⟩
        · intro c hc
          simp at hc
        · intro c hc
          simp at hc
      · rw [if_neg hl]
        refine ⟨by simp [isControllerEvent], ?_, ?_, by simp⟩
        · intro c hc
          simp at hc
        · intro c hc
          simp at hc

/-- Closed witness for C6: a full trial with learning and an enabled
controller; the trace is processing, learning, then exactly one controller
execution at the end. -/
theorem claim6_controller_phase_witness :
    ([TrialEvent.processing, TrialEvent.learning,
        TrialEvent.controllerExec mD].filter isControllerEvent).length ≤ 1 ∧
    SysConfig.enableController
        ⟨[[0]], true, some mD, true, false⟩ = true ∧
    TrialEvent.processing ∈ [TrialEvent.processing, TrialEvent.learning,
        TrialEvent.controllerExec mD] := by
  have h := claim6_controller_phase ⟨[[0]], true, some mD, true, false⟩
    SysInput.noInput ⟨[[0]], [[0]]⟩ id id id [[0]]
    ⟨[[0]], [[0]]⟩
    [TrialEvent.processing, TrialEvent.learning, TrialEvent.controllerExec mD] rfl
  exact ⟨h.1, (h.2.1 mD (by simp)).1, h.2.2.2⟩

/-- C7.  With a non-`None` input, `System.execute` raises a `SystemError`
exactly when the number of input items differs from the number of ORIGIN
Mechanisms and the input is not an object-dtype array whose total element
count (`np.size`) equals that number; the error raised by the check
propagates out of `execute`. -/
theorem claim7_input_count_validation :
    (∀ (input : SysInput) (n : Nat),
        (∃ msg, checkInput input n = Except.error msg) ↔
          (input ≠ SysInput.noInput ∧ (SysInput.itemsOf input).length ≠ n ∧
           ¬ (SysInput.isObjectArray input = true ∧ SysInput.npSize input = n))) ∧
    (∀ (cfg : SysConfig) (input : SysInput) (st : SysState) (msg : String),
        checkInput input cfg.originDefaults.length = Except.error msg →
        ∀ procPhase learnPhase ctrlPhase,
          executeTrial cfg input st procPhase learnPhase ctrlPhase
            = Except.error msg) := by
  constructor
  · intro input n
    cases input with
    | noInput =>
      simp [checkInput]
    | regular items =>
      rw [checkInput]
      by_cases hlen : items.length = n
      · rw [if_pos hlen]
        simp [SysInput.itemsOf, hlen]
      · rw [if_neg hlen]
        simp [SysInput.itemsOf, SysInput.isObjectArray, hlen]
    | objectArray items size =>
      rw [checkInput]
      by_cases hlen : items.length = n
      · rw [if_pos hlen]
        simp [SysInput.itemsOf, hlen]
      · rw [if_neg hlen]
        by_cases hsize : size = n
        · rw [if_pos hsize]
          simp [SysInput.itemsOf, SysInput.isObjectArray, SysInput.npSize, hlen, hsize]
        · rw [if_neg hsize]
          simp [SysInput.itemsOf, SysInput.isObjectArray, SysInput.npSize, hlen, hsize]
  · intro cfg input st msg hchk procPhase learnPhase ctrlPhase
    have hinit : initInputs cfg input st = Except.error msg := by
      cases input with
      | noInput =>
        rw [checkInput] at hchk
        exact absurd hchk (by simp)
      | regular items =>
        rw [initInputs, hchk]
        intro hc
        exact SysInput.noConfusion hc
      | objectArray items size =>
        rw [initInputs, hchk]
        intro hc
        exact SysInput.noConfusion hc
    rw [executeTrial, hinit]

/-- Closed witness for C7: a two-item list input for a one-ORIGIN System
raises; the same System accepts an object-dtype array of `np.size` 1. -/
theorem claim7_input_count_validation_witness :
    (SysInput.regular [[1], [2]] ≠ SysInput.noInput ∧
      (SysInput.itemsOf (SysInput.regular [[1], [2]])).length ≠ 1 ∧
      ¬ (SysInput.isObjectArray (SysInput.regular [[1], [2]]) = true ∧
         SysInput.npSize (SysInput.regular [[1], [2]]) = 1)) ∧
    executeTrial ⟨[[0]], false, none, false, false⟩ (SysInput.regular [[1], [2]])
        ⟨[[0]], [[0]]⟩ id id id
      = Except.error
          "Number of items in input does not match its number of origin Mechanisms" := by
  constructor
  · exact (claim7_input_count_validation.1 (SysInput.regular [[1], [2]]) 1).mp ⟨_, rfl⟩
  · exact claim7_input_count_validation.2 ⟨[[0]], false, none, false, false⟩
      (SysInput.regular [[1], [2]]) ⟨[[0]], [[0]]⟩ _ rfl id id id

/-- The failing configuration for C8 (see `mergeObjMech`): `mC` is the
second-encountered ObjectiveMechanism, `mD` the ObjectiveMechanism already
in a dependency set of the learning graph, `mA` the shared sample
(TERMINAL) Mechanism — whose efferent to `mC` precedes its efferent to
`mD` — and `mB` the LearningMechanism receiving `mC`'s error signal. -/
def isObj8 : Mech → Bool := fun m => m = mC || m = mD

def legraph8 : DepGraph := [(mB, [mD])]

def efferents8 : Mech → List Mech := fun m => if m = mA then [mC, mD] else []

/-- C8, evaluated at the failing input: the TERMINAL-CONVERGENCE condition
holds (every Mechanism projecting to `mC` also projects to the in-graph
ObjectiveMechanism `mD`), yet `next(...)` selects the *first*
ObjectiveMechanism among the sample Mechanism's efferent receivers — `mC`
itself, since its Projection was created first — so the encountered
ObjectiveMechanism is entered into the learning graph instead of being
replaced by `mD`, and the replacement MappingProjections originate from
`mC`, not from `mD`.  This contradicts both the claim and the in-code
comment "Get the other ObjectiveMechanism to which the error_source
projects (in addition to obj_mech)" (line 1790). -/
theorem claim8_merge_selects_wrong_objective :
    terminalConvergence isObj8 legraph8 efferents8 mC [mA] = true ∧
    (mergeObjMech isObj8 legraph8 efferents8 [mB] mC mA [mA]).includedMech = some mC ∧
    mC ≠ mD ∧
    (mergeObjMech isObj8 legraph8 efferents8 [mB] mC mA [mA]).rewiredProjections
      = [(mC, mB)] := by
  refine ⟨by decide, by decide, by decide, by decide⟩

/-- C9 (amended).  The value returned by `System.execute` is the
collection of TERMINAL output-state values captured immediately after the
processing phase (line 2747) — before learning and control run — and
returned unchanged at the end of the trial; processing is the first phase
of the trace. -/
theorem claim9_outcome_captured_after_processing :
    ∀ (cfg : SysConfig) (input : SysInput) (st : SysState)
      (procPhase learnPhase ctrlPhase : SysState → SysState)
      (out : List Val) (st' : SysState) (tr : List TrialEvent),
      executeTrial cfg input st procPhase learnPhase ctrlPhase = Except.ok (out, st', tr) →
      ∃ inp st0, initInputs cfg input st = Except.ok (inp, st0) ∧
        out = (procPhase st0).terminalOutputs ∧
        tr.head? = some TrialEvent.processing := by
  intro cfg input st procPhase learnPhase ctrlPhase out st' tr h
  rw [executeTrial] at h
  cases hinit : initInputs cfg input st with
  | error e =>
    rw [hinit] at h
    exact absurd h (by simp)
  | ok p =>
    obtain ⟨inp, st0⟩ := p
    rw [hinit] at h
    simp only at h
    refine ⟨inp, st0, rfl, ?_⟩
    by_cases hctl : (!cfg.isSimulation && cfg.enableController) = true
    · rw [if_pos hctl] at h
      cases hcon : cfg.controller with
      | none =>
        rw [hcon] at h
        exact absurd h (by simp)
      | some c0 =>
        rw [hcon] at h
        rw [Except.ok.injEq, Prod.mk.injEq, Prod.mk.injEq] at h
        obtain ⟨hout, -, htr⟩ := h
        subst htr
        exact ⟨hout.symm, rfl⟩
    · rw [if_neg hctl] at h
      rw [Except.ok.injEq, Prod.mk.injEq, Prod.mk.injEq] at h
      obtain ⟨hout, -, htr⟩ := h
      subst htr
      exact ⟨hout.symm, rfl⟩

/-- Closed witness for C9 (amended), on a trial whose controller changes
the TERMINAL outputs after the capture. -/
theorem claim9_outcome_captured_after_processing_witness :
    ∃ inp st0,
      initInputs ⟨[[0]], true, some mD, false, false⟩ SysInput.noInput ⟨[[0]], [[0]]⟩
        = Except.ok (inp, st0) ∧
      ([[0]] : List Val) = (id st0).terminalOutputs ∧
      ([TrialEvent.processing, TrialEvent.controllerExec mD].head?
        = some TrialEvent.processing) :=
  claim9_outcome_captured_after_processing ⟨[[0]], true, some mD, false, false⟩
    SysInput.noInput ⟨[[0]], [[0]]⟩ id id
    (fun s => { s with terminalOutputs := [[1]] }) [[0]]
    ⟨[[0]], [[1]]⟩ [TrialEvent.processing, TrialEvent.controllerExec mD] rfl

/-- Counterexample to C9 as stated: the returned value is **not** gathered
after the control phase — a controller that rewrites the TERMINAL outputs
(as its nested simulation runs do) leaves the return value at the
post-processing snapshot `[[0]]`, while the TERMINAL outputs at the end of
the trial are `[[1]]`. -/
theorem claim9_counterexample :
    executeTrial ⟨[[0]], true, some mD, false, false⟩ SysInput.noInput ⟨[[0]], [[0]]⟩
        id id (fun s => { s with terminalOutputs := [[1]] })
      = Except.ok ([[0]], ⟨[[0]], [[1]]⟩,
          [TrialEvent.processing, TrialEvent.controllerExec mD]) ∧
    ([[0]] : List Val) ≠ (SysState.mk [[0]] [[1]]).terminalOutputs := by
  constructor
  · rfl
  · decide

/-- C10 (amended).  `System.execute` with `input=None` does not raise: the
default input (each ORIGIN Mechanism's default variable, in
origin-mechanism order) is constructed and bound to `self.input` — but,
unlike an explicitly passed input, it is **not** written to the
SystemInputStates, which keep whatever values they already held. -/
theorem claim10_none_input_uses_default :
    ∀ (cfg : SysConfig) (st : SysState),
      initInputs cfg SysInput.noInput st = Except.ok (cfg.originDefaults, st) := by
  intro cfg st
  rfl

/-- Counterexample to C10 as stated: the trial does *not* proceed exactly
as if the default had been passed explicitly.  With stale SystemInputState
values `[[7]]` and ORIGIN default `[[5]]`, a processing phase that
propagates the SystemInputState values to the TERMINAL outputs returns
`[[7]]` under `input=None` but `[[5]]` when the default is passed
explicitly (which writes the SystemInputStates, lines 2701-2721). -/
theorem claim10_counterexample :
    executeTrial ⟨[[5]], false, none, false, false⟩ SysInput.noInput ⟨[[7]], [[0]]⟩
        (fun s => { s with terminalOutputs := s.systemInputValues }) id id
      = Except.ok ([[7]], ⟨[[7]], [[7]]⟩, [TrialEvent.processing]) ∧
    executeTrial ⟨[[5]], false, none, false, false⟩ (SysInput.regular [[5]]) ⟨[[7]], [[0]]⟩
        (fun s => { s with terminalOutputs := s.systemInputValues }) id id
      = Except.ok ([[5]], ⟨[[5]], [[5]]⟩, [TrialEvent.processing]) ∧
    ([[7]] : List Val) ≠ [[5]] := by
  refine ⟨rfl, rfl, by decide⟩

end PsyNeuLink
